import Mathlib

/-!
Verification of the markup/section-tree core of the Editor backend
(`server.js`): the Tree Builder `buildTreeFromHtml`, the Markup Sanitizer
`cleanHtml`, the Table Attribute Stripper `sanitizeTable`, the Tree
Serializer `buildHtml` of the export route, and the identifier generator
`cryptoId`.

The JavaScript builder walks the element children of the parsed document
body.  We embed that walk over the abstract list of top-level element
nodes (`MNode`): a heading element `H1`..`H6` carries its level and its
raw `textContent`; any other element carries its `outerHTML` string.
The builder's mutable stack of open sections is embedded as explicit
state passing: in the source, a freshly created node is pushed into its
parent's `children` array at creation time and then mutated through the
stack alias until it is popped; here a node accumulates its fields while
it sits on the stack and is appended to its parent's `children` (or to
the root list) at the moment it is popped, which yields the same final
tree because a popped node is never mutated again and children are
always appended at the end in pop order (equal to creation order).
-/

namespace EditorBackend

/-- One node of the section tree produced by `buildTreeFromHtml`, with
the randomly generated `id` field omitted.  The fields mirror the object
literal in `createNode`: `title`, `level`, `contentHtml`, `children`. -/
inductive SecS where
| mk (title : String) (level : Nat) (contentHtml : String) (children : List SecS)

mutual

def beqT : SecS → SecS → Bool
| .mk t1 l1 c1 ch1, .mk t2 l2 c2 ch2 =>
  t1 == t2 && l1 == l2 && c1 == c2 && beqF ch1 ch2

def beqF : List SecS → List SecS → Bool
| [], [] => true
| x :: xs, y :: ys => beqT x y && beqF xs ys
| _, _ => false

end

mutual

theorem beqT_iff (a b : SecS) : beqT a b = true ↔ a = b := by
  cases a with
  | mk t1 l1 c1 ch1 =>
    cases b with
    | mk t2 l2 c2 ch2 =>
      simp [beqT, Bool.and_eq_true, beq_iff_eq, beqF_iff ch1 ch2, and_assoc]

theorem beqF_iff (xs ys : List SecS) : beqF xs ys = true ↔ xs = ys := by
  cases xs with
  | nil => cases ys <;> simp [beqF]
  | cons x xs =>
    cases ys with
    | nil => simp [beqF]
    | cons y ys =>
      simp [beqF, Bool.and_eq_true, beqT_iff x y, beqF_iff xs ys]

end

instance : DecidableEq SecS :=
  fun a b => decidable_of_iff (beqT a b = true) (beqT_iff a b)

def SecS.title : SecS → String
| .mk t _ _ _ => t

def SecS.level : SecS → Nat
| .mk _ l _ _ => l

def SecS.contentHtml : SecS → String
| .mk _ _ c _ => c

def SecS.children : SecS → List SecS
| .mk _ _ _ ch => ch

/-- One top-level element of the document body, as consumed by the
builder's loop `for (const node of bodyChildren)`.  A `heading` is an
element whose tag matches `^H([1-6])$`; it carries the matched level and
the element's raw `textContent` (trimming happens inside the builder,
as in the source).  Every other element is `content` and carries its
`outerHTML`. -/
inductive MNode where
| heading (level : Nat) (text : String)
| content (frag : String)
deriving DecidableEq

/-- ASCII whitespace recognised by the model of `String.prototype.trim`. -/
def wsp (c : Char) : Bool :=
  c == ' ' || c == '\t' || c == '\n' || c == '\r'

/-- Model of JavaScript `String.prototype.trim`: drop whitespace from
both ends. -/
def trimChars (l : List Char) : List Char :=
  ((l.dropWhile wsp).reverse.dropWhile wsp).reverse

def strTrim (s : String) : String :=
  (trimChars s.toList).asString

/-- Append `c` as the last child of `p` (the effect, on the final tree,
of `parent.children.push(newNode)` once `newNode` is fully built). -/
def pushChild (p c : SecS) : SecS :=
  .mk p.title p.level p.contentHtml (p.children ++ [c])

/-- The effect of `current.contentHtml += htmlFragment`. -/
def addContent (t : SecS) (frag : String) : SecS :=
  .mk t.title t.level (t.contentHtml ++ frag) t.children

/-- Builder state: the list of already closed top-level sections and the
stack of currently open sections, head = top of stack (innermost).  In
the source the top-level array `tree` also aliases the still-open
top-level section; here an open top-level section lives only on the
stack and joins `roots` when it is popped. -/
structure BStateS where
  roots : List SecS
  stack : List SecS
deriving DecidableEq

/-- Induction principle matching the while-loop of `popToLevel`: the
loop either sees an empty stack, pops the last entry, pops an inner
entry onto the one below, or stops because the top is shallower. -/
theorem popRecAux {α : Type} (lev : α → Nat) (push : α → α → α) (l : Nat)
    (motive : List α → Prop)
    (h1 : motive [])
    (h2 : ∀ t, l ≤ lev t → motive [t])
    (h3 : ∀ t p st, l ≤ lev t → motive (push p t :: st) → motive (t :: p :: st))
    (h4 : ∀ t st, ¬ l ≤ lev t → motive (t :: st)) :
    ∀ st, motive st := by
  have main : ∀ n st, List.length st ≤ n → motive st := by
    intro n
    induction n with
    | zero =>
      intro st hlen
      cases st with
      | nil => exact h1
      | cons t st' => simp at hlen
    | succ n ih =>
      intro st hlen
      cases st with
      | nil => exact h1
      | cons t st' =>
        by_cases hc : l ≤ lev t
        · cases st' with
          | nil => exact h2 t hc
          | cons p st'' =>
            refine h3 t p st'' hc (ih _ ?_)
            simp at hlen ⊢
            omega
        · exact h4 t st' hc
  intro st
  exact main st.length st (Nat.le_refl _)

/-- Induction principle for collapsing a whole stack. -/
theorem closeRecAux {α : Type} (push : α → α → α) (motive : List α → Prop)
    (h1 : motive []) (h2 : ∀ t, motive [t])
    (h3 : ∀ t p st, motive (push p t :: st) → motive (t :: p :: st)) :
    ∀ st, motive st := by
  have main : ∀ n st, List.length st ≤ n → motive st := by
    intro n
    induction n with
    | zero =>
      intro st hlen
      cases st with
      | nil => exact h1
      | cons t st' => simp at hlen
    | succ n ih =>
      intro st hlen
      cases st with
      | nil => exact h1
      | cons t st' =>
        cases st' with
        | nil => exact h2 t
        | cons p st'' =>
          refine h3 t p st'' (ih _ ?_)
          simp at hlen ⊢
          omega
  intro st
  exact main st.length st (Nat.le_refl _)

/-- Fuel-driven worker for `popS`; the fuel is always at least the stack
length, so the fuel-exhausted branch is never taken. -/
def popGoS (l : Nat) : Nat → List SecS → List SecS → List SecS × List SecS
| 0, roots, st => (roots, st)
| _ + 1, roots, [] => (roots, [])
| fuel + 1, roots, t :: st =>
  if l ≤ t.level then
    match st with
    | [] => (roots ++ [t], [])
    | p :: st' => popGoS l fuel roots (pushChild p t :: st')
  else (roots, t :: st)

/-- Embedding of `popToLevel(level)`: pop the stack while the top
entry's level is `≥ level`.  A popped node is attached to the node below
it, or to the root list when it is the bottom of the stack. -/
def popS (l : Nat) (roots st : List SecS) : List SecS × List SecS :=
  popGoS l st.length roots st

theorem popS_nil (l : Nat) (roots : List SecS) : popS l roots [] = (roots, []) := by
  simp [popS, popGoS]

theorem popS_stop (l : Nat) (roots : List SecS) (t : SecS) (st : List SecS)
    (h : t.level < l) : popS l roots (t :: st) = (roots, t :: st) := by
  simp [popS, popGoS, Nat.not_le_of_lt h]

theorem popS_last (l : Nat) (roots : List SecS) (t : SecS)
    (h : l ≤ t.level) : popS l roots [t] = (roots ++ [t], []) := by
  simp [popS, popGoS, h]

theorem popS_more (l : Nat) (roots : List SecS) (t p : SecS) (st : List SecS)
    (h : l ≤ t.level) :
    popS l roots (t :: p :: st) = popS l roots (pushChild p t :: st) := by
  simp [popS, popGoS, h]

/-- One iteration of the builder's loop over `bodyChildren`. -/
def stepS (s : BStateS) (n : MNode) : BStateS :=
  match n with
  | .heading l txt =>
    let rs := popS l s.roots s.stack
    ⟨rs.1, SecS.mk (strTrim txt) l "" [] :: rs.2⟩
  | .content frag =>
    match s.stack with
    | t :: st => ⟨s.roots, addContent t frag :: st⟩
    | [] =>
      match s.roots with
      | [] => ⟨[], [SecS.mk "Intro" 1 frag []]⟩
      | r :: rs => ⟨addContent r frag :: rs, []⟩

def runS (s : BStateS) (ns : List MNode) : BStateS :=
  ns.foldl stepS s

/-- Fuel-driven worker for `closeAll`. -/
def closeGoS : Nat → List SecS → List SecS → List SecS
| 0, roots, _ => roots
| _ + 1, roots, [] => roots
| _ + 1, roots, [t] => roots ++ [t]
| fuel + 1, roots, t :: p :: st => closeGoS fuel roots (pushChild p t :: st)

/-- Attach every still-open section at the end of the walk (in the
source this is implicit: the nodes already sit in `tree` by aliasing). -/
def closeAll (roots st : List SecS) : List SecS :=
  closeGoS st.length roots st

theorem closeAll_nil (roots : List SecS) : closeAll roots [] = roots := by
  simp [closeAll, closeGoS]

theorem closeAll_one (roots : List SecS) (t : SecS) :
    closeAll roots [t] = roots ++ [t] := by
  simp [closeAll, closeGoS]

theorem closeAll_more (roots : List SecS) (t p : SecS) (st : List SecS) :
    closeAll roots (t :: p :: st) = closeAll roots (pushChild p t :: st) := by
  simp [closeAll, closeGoS]

/-- The id-free tree builder: `buildTreeFromHtml` on an abstract list of
top-level element nodes. -/
def buildTreeS (ns : List MNode) : List SecS :=
  let s := runS ⟨[], []⟩ ns
  closeAll s.roots s.stack

/-! The builder with the `id` field.  `cryptoId` returns
`'n_' + Math.random().toString(36).slice(2, 9)`; the random part is
modelled by an arbitrary function `rand` from the creation counter to a
string, so one run of the builder uses one `rand`. -/

/-- A section node including the `id` field assigned by `createNode`. -/
inductive Sec where
| mk (id title : String) (level : Nat) (contentHtml : String) (children : List Sec)

def Sec.id : Sec → String
| .mk i _ _ _ _ => i

def Sec.title : Sec → String
| .mk _ t _ _ _ => t

def Sec.level : Sec → Nat
| .mk _ _ l _ _ => l

def Sec.contentHtml : Sec → String
| .mk _ _ _ c _ => c

def Sec.children : Sec → List Sec
| .mk _ _ _ _ ch => ch

def pushChildI (p c : Sec) : Sec :=
  .mk p.id p.title p.level p.contentHtml (p.children ++ [c])

def addContentI (t : Sec) (frag : String) : Sec :=
  .mk t.id t.title t.level (t.contentHtml ++ frag) t.children

/-- Builder state with the creation counter for id generation. -/
structure BState where
  k : Nat
  roots : List Sec
  stack : List Sec

def popGoI (l : Nat) : Nat → List Sec → List Sec → List Sec × List Sec
| 0, roots, st => (roots, st)
| _ + 1, roots, [] => (roots, [])
| fuel + 1, roots, t :: st =>
  if l ≤ t.level then
    match st with
    | [] => (roots ++ [t], [])
    | p :: st' => popGoI l fuel roots (pushChildI p t :: st')
  else (roots, t :: st)

def popI (l : Nat) (roots st : List Sec) : List Sec × List Sec :=
  popGoI l st.length roots st

theorem popI_nil (l : Nat) (roots : List Sec) : popI l roots [] = (roots, []) := by
  simp [popI, popGoI]

theorem popI_stop (l : Nat) (roots : List Sec) (t : Sec) (st : List Sec)
    (h : t.level < l) : popI l roots (t :: st) = (roots, t :: st) := by
  simp [popI, popGoI, Nat.not_le_of_lt h]

theorem popI_last (l : Nat) (roots : List Sec) (t : Sec)
    (h : l ≤ t.level) : popI l roots [t] = (roots ++ [t], []) := by
  simp [popI, popGoI, h]

theorem popI_more (l : Nat) (roots : List Sec) (t p : Sec) (st : List Sec)
    (h : l ≤ t.level) :
    popI l roots (t :: p :: st) = popI l roots (pushChildI p t :: st) := by
  simp [popI, popGoI, h]

def stepI (rand : Nat → String) (s : BState) (n : MNode) : BState :=
  match n with
  | .heading l txt =>
    let rs := popI l s.roots s.stack
    ⟨s.k + 1, rs.1, Sec.mk ("n_" ++ rand s.k) (strTrim txt) l "" [] :: rs.2⟩
  | .content frag =>
    match s.stack with
    | t :: st => ⟨s.k, s.roots, addContentI t frag :: st⟩
    | [] =>
      match s.roots with
      | [] => ⟨s.k + 1, [], [Sec.mk ("n_" ++ rand s.k) "Intro" 1 frag []]⟩
      | r :: rs => ⟨s.k, addContentI r frag :: rs, []⟩

def runI (rand : Nat → String) (s : BState) (ns : List MNode) : BState :=
  ns.foldl (stepI rand) s

def closeGoI : Nat → List Sec → List Sec → List Sec
| 0, roots, _ => roots
| _ + 1, roots, [] => roots
| _ + 1, roots, [t] => roots ++ [t]
| fuel + 1, roots, t :: p :: st => closeGoI fuel roots (pushChildI p t :: st)

def closeAllI (roots st : List Sec) : List Sec :=
  closeGoI st.length roots st

theorem closeAllI_nil (roots : List Sec) : closeAllI roots [] = roots := by
  simp [closeAllI, closeGoI]

theorem closeAllI_one (roots : List Sec) (t : Sec) :
    closeAllI roots [t] = roots ++ [t] := by
  simp [closeAllI, closeGoI]

theorem closeAllI_more (roots : List Sec) (t p : Sec) (st : List Sec) :
    closeAllI roots (t :: p :: st) = closeAllI roots (pushChildI p t :: st) := by
  simp [closeAllI, closeGoI]

/-- `buildTreeFromHtml` including id generation. -/
def buildTree (rand : Nat → String) (ns : List MNode) : List Sec :=
  let s := runI rand ⟨0, [], []⟩ ns
  closeAllI s.roots s.stack

mutual

/-- Erase the `id` fields of a section tree. -/
def stripSec : Sec → SecS
| .mk _ t l c ch => .mk t l c (stripFor ch)

def stripFor : List Sec → List SecS
| [] => []
| x :: xs => stripSec x :: stripFor xs

end

theorem stripFor_append (a b : List Sec) :
    stripFor (a ++ b) = stripFor a ++ stripFor b := by
  induction a with
  | nil => simp [stripFor]
  | cons x xs ih => simp [stripFor, ih]

theorem stripSec_pushChild (p c : Sec) :
    stripSec (pushChildI p c) = pushChild (stripSec p) (stripSec c) := by
  cases p with
  | mk i t l c' ch =>
    simp [pushChildI, stripSec, pushChild, SecS.title, SecS.level,
      SecS.contentHtml, SecS.children, Sec.id, Sec.title, Sec.level,
      Sec.contentHtml, Sec.children, stripFor_append, stripFor]

theorem stripSec_addContent (t : Sec) (frag : String) :
    stripSec (addContentI t frag) = addContent (stripSec t) frag := by
  cases t with
  | mk i ti l c ch =>
    simp [addContentI, stripSec, addContent, SecS.title, SecS.level,
      SecS.contentHtml, SecS.children, Sec.id, Sec.title, Sec.level,
      Sec.contentHtml, Sec.children]

theorem stripSec_level (t : Sec) : (stripSec t).level = t.level := by
  cases t with
  | mk i ti l c ch => simp [stripSec, SecS.level, Sec.level]

theorem strip_popI (l : Nat) (roots : List Sec) : ∀ st : List Sec,
    stripFor (popI l roots st).1 = (popS l (stripFor roots) (stripFor st)).1 ∧
    stripFor (popI l roots st).2 = (popS l (stripFor roots) (stripFor st)).2 := by
  refine popRecAux Sec.level pushChildI l _ ?_ ?_ ?_ ?_
  · simp [popI_nil, popS_nil, stripFor]
  · intro t h
    rw [popI_last l roots t h]
    simp only [stripFor]
    rw [popS_last l (stripFor roots) (stripSec t) (by rw [stripSec_level]; exact h)]
    simp [stripFor_append, stripFor]
  · intro t p st' h ih
    rw [popI_more l roots t p st' h]
    simp only [stripFor]
    rw [popS_more l (stripFor roots) (stripSec t) (stripSec p) (stripFor st')
      (by rw [stripSec_level]; exact h)]
    simpa [stripFor, stripSec_pushChild] using ih
  · intro t st h
    have h' : t.level < l := Nat.lt_of_not_le h
    rw [popI_stop l roots t st h']
    simp only [stripFor]
    rw [popS_stop l (stripFor roots) (stripSec t) (stripFor st)
      (by rw [stripSec_level]; exact h')]
    simp [stripFor]

theorem strip_stepI (rand : Nat → String) (s : BState) (n : MNode) :
    stripFor (stepI rand s n).roots = (stepS ⟨stripFor s.roots, stripFor s.stack⟩ n).roots ∧
    stripFor (stepI rand s n).stack = (stepS ⟨stripFor s.roots, stripFor s.stack⟩ n).stack := by
  cases n with
  | heading l txt =>
    have h := strip_popI l s.roots s.stack
    simp [stepI, stepS, stripFor, stripSec, h.1, h.2]
  | content frag =>
    cases hst : s.stack with
    | nil =>
      cases hr : s.roots with
      | nil => simp [stepI, stepS, hst, hr, stripFor, stripSec]
      | cons r rs => simp [stepI, stepS, hst, hr, stripFor, stripSec_addContent]
    | cons t st => simp [stepI, stepS, hst, stripFor, stripSec_addContent]

theorem strip_runI (rand : Nat → String) (ns : List MNode) (s : BState) :
    stripFor (runI rand s ns).roots = (runS ⟨stripFor s.roots, stripFor s.stack⟩ ns).roots ∧
    stripFor (runI rand s ns).stack = (runS ⟨stripFor s.roots, stripFor s.stack⟩ ns).stack := by
  induction ns generalizing s with
  | nil => simp [runI, runS]
  | cons n ns ih =>
    have h1 := strip_stepI rand s n
    have h2 := ih (stepI rand s n)
    simpa [runI, runS, List.foldl_cons, h1.1, h1.2] using h2

theorem strip_closeAllI (roots : List Sec) : ∀ st : List Sec,
    stripFor (closeAllI roots st) = closeAll (stripFor roots) (stripFor st) := by
  refine closeRecAux pushChildI _ ?_ ?_ ?_
  · simp [closeAllI_nil, closeAll_nil, stripFor]
  · intro t
    rw [closeAllI_one]
    simp [stripFor, stripFor_append, closeAll_one]
  · intro t p st ih
    rw [closeAllI_more]
    simp only [stripFor]
    rw [closeAll_more]
    simpa [stripFor, stripSec_pushChild] using ih

/-- Erasing ids commutes with building: the id-carrying builder and the
id-free builder produce the same tree up to ids, whatever the random
source is. -/
theorem strip_buildTree (rand : Nat → String) (ns : List MNode) :
    stripFor (buildTree rand ns) = buildTreeS ns := by
  have h := strip_runI rand ns ⟨0, [], []⟩
  simp only [buildTree, buildTreeS, strip_closeAllI, stripFor] at *
  rw [h.1, h.2]

/-- Recognise an id of the shape `"n_" ++ _` produced by `cryptoId`. -/
def idOK (s : String) : Bool :=
  match s.data with
  | 'n' :: '_' :: _ => true
  | _ => false

mutual

def allIdsT : Sec → Bool
| .mk i _ _ _ ch => idOK i && allIdsF ch

def allIdsF : List Sec → Bool
| [] => true
| x :: xs => allIdsT x && allIdsF xs

end

theorem idOK_gen (r : String) : idOK ("n_" ++ r) = true := by
  simp [idOK, String.data_append]

theorem allIdsF_append (a b : List Sec) :
    allIdsF (a ++ b) = (allIdsF a && allIdsF b) := by
  induction a with
  | nil => simp [allIdsF]
  | cons x xs ih => simp [allIdsF, ih, Bool.and_assoc]

theorem allIdsT_pushChild (p c : Sec) :
    allIdsT (pushChildI p c) = (allIdsT p && allIdsT c) := by
  cases p with
  | mk i t l c' ch =>
    simp [pushChildI, allIdsT, Sec.id, Sec.title, Sec.level, Sec.contentHtml,
      Sec.children, allIdsF_append, allIdsF, Bool.and_assoc]

theorem allIdsT_addContent (t : Sec) (frag : String) :
    allIdsT (addContentI t frag) = allIdsT t := by
  cases t with
  | mk i ti l c ch =>
    simp [addContentI, allIdsT, Sec.id, Sec.title, Sec.level, Sec.contentHtml,
      Sec.children]

theorem allIds_popI (l : Nat) (roots : List Sec) (hr : allIdsF roots = true) :
    ∀ st : List Sec, allIdsF st = true →
    allIdsF (popI l roots st).1 = true ∧ allIdsF (popI l roots st).2 = true := by
  refine popRecAux Sec.level pushChildI l _ ?_ ?_ ?_ ?_
  · intro _
    simpa [popI_nil, allIdsF]
  · intro t h hs
    rw [popI_last l roots t h]
    simp_all [allIdsF_append, allIdsF]
  · intro t p st' h ih hs
    simp only [allIdsF, Bool.and_eq_true] at hs
    have hs' : allIdsF (pushChildI p t :: st') = true := by
      simp [allIdsF, allIdsT_pushChild, hs.1, hs.2.1, hs.2.2]
    rw [popI_more l roots t p st' h]
    exact ih hs'
  · intro t st h hs
    rw [popI_stop l roots t st (Nat.lt_of_not_le h)]
    exact ⟨hr, hs⟩

theorem allIds_stepI (rand : Nat → String) (s : BState) (n : MNode)
    (hr : allIdsF s.roots = true) (hs : allIdsF s.stack = true) :
    allIdsF (stepI rand s n).roots = true ∧ allIdsF (stepI rand s n).stack = true := by
  cases n with
  | heading l txt =>
    have h := allIds_popI l s.roots hr s.stack hs
    simp [stepI, allIdsF, allIdsT, idOK_gen, h.1, h.2]
  | content frag =>
    cases hst : s.stack with
    | nil =>
      cases hrr : s.roots with
      | nil => simp [stepI, hst, hrr, allIdsF, allIdsT, idOK_gen]
      | cons r rs =>
        rw [hrr] at hr
        simp only [allIdsF, Bool.and_eq_true] at hr
        simp [stepI, hst, hrr, allIdsF, allIdsT_addContent, hr.1, hr.2]
    | cons t st =>
      rw [hst] at hs
      simp only [allIdsF, Bool.and_eq_true] at hs
      simp [stepI, hst, allIdsF, allIdsT_addContent, hs.1, hs.2, hr]

theorem allIds_runI (rand : Nat → String) (ns : List MNode) (s : BState)
    (hr : allIdsF s.roots = true) (hs : allIdsF s.stack = true) :
    allIdsF (runI rand s ns).roots = true ∧ allIdsF (runI rand s ns).stack = true := by
  induction ns generalizing s with
  | nil => exact ⟨by simpa [runI], by simpa [runI]⟩
  | cons n ns ih =>
    have h := allIds_stepI rand s n hr hs
    have h2 := ih (stepI rand s n) h.1 h.2
    simpa [runI, List.foldl_cons] using h2

theorem allIds_closeAllI (roots : List Sec) (hr : allIdsF roots = true) :
    ∀ st : List Sec, allIdsF st = true → allIdsF (closeAllI roots st) = true := by
  refine closeRecAux pushChildI _ ?_ ?_ ?_
  · intro _
    simpa [closeAllI_nil]
  · intro t hs
    rw [closeAllI_one]
    simp_all [allIdsF_append, allIdsF]
  · intro t p st ih hs
    simp only [allIdsF, Bool.and_eq_true] at hs
    have hs' : allIdsF (pushChildI p t :: st) = true := by
      simp [allIdsF, allIdsT_pushChild, hs.1, hs.2.1, hs.2.2]
    rw [closeAllI_more]
    exact ih hs'

theorem allIds_buildTree (rand : Nat → String) (ns : List MNode) :
    allIdsF (buildTree rand ns) = true := by
  have h := allIds_runI rand ns ⟨0, [], []⟩ (by simp [allIdsF]) (by simp [allIdsF])
  exact allIds_closeAllI _ h.1 _ h.2

mutual

/-- Number of sections in a tree. -/
def sizeT : SecS → Nat
| .mk _ _ _ ch => 1 + sizeF ch

/-- Number of sections in a forest. -/
def sizeF : List SecS → Nat
| [] => 0
| t :: ts => sizeT t + sizeF ts

end

def isHeadingN : MNode → Bool
| .heading _ _ => true
| .content _ => false

/-- Number of heading elements in the input. -/
def countH : List MNode → Nat
| [] => 0
| .heading _ _ :: rest => countH rest + 1
| .content _ :: rest => countH rest

/-- One when the input starts with a non-heading element (an `Intro`
node is synthesized), zero otherwise. -/
def introCount : List MNode → Nat
| .content _ :: _ => 1
| _ => 0

/-- Concatenation of the content fragments of a node list, in order. -/
def joinFrags : List MNode → String
| [] => ""
| .content f :: rest => f ++ joinFrags rest
| .heading _ _ :: rest => joinFrags rest

/-- The list is empty or starts with a heading. -/
def headsOrNil : List MNode → Bool
| [] => true
| .heading _ _ :: _ => true
| .content _ :: _ => false

theorem sizeF_append (a b : List SecS) :
    sizeF (a ++ b) = sizeF a + sizeF b := by
  induction a with
  | nil => simp [sizeF]
  | cons t ts ih => simp [sizeF, ih]; omega

theorem sizeT_pushChild (p c : SecS) :
    sizeT (pushChild p c) = sizeT p + sizeT c := by
  cases p with
  | mk ti l ct ch =>
    simp [pushChild, sizeT, SecS.title, SecS.level, SecS.contentHtml,
      SecS.children, sizeF_append, sizeF]
    omega

theorem sizeT_addContent (t : SecS) (f : String) :
    sizeT (addContent t f) = sizeT t := by
  cases t with
  | mk ti l ct ch =>
    simp [addContent, sizeT, SecS.title, SecS.level, SecS.contentHtml,
      SecS.children]

theorem popS_size (l : Nat) (roots : List SecS) : ∀ st : List SecS,
    sizeF (popS l roots st).1 + sizeF (popS l roots st).2 =
    sizeF roots + sizeF st := by
  refine popRecAux SecS.level pushChild l _ ?_ ?_ ?_ ?_
  · simp [popS_nil, sizeF]
  · intro t h
    rw [popS_last l roots t h]
    simp [sizeF, sizeF_append]
  · intro t p st' h ih
    rw [popS_more l roots t p st' h]
    rw [ih]
    simp [sizeF, sizeT_pushChild]
    omega
  · intro t st h
    rw [popS_stop l roots t st (Nat.lt_of_not_le h)]

theorem closeAll_size (roots : List SecS) : ∀ st : List SecS,
    sizeF (closeAll roots st) = sizeF roots + sizeF st := by
  refine closeRecAux pushChild _ ?_ ?_ ?_
  · simp [closeAll_nil, sizeF]
  · intro t
    simp [closeAll_one, sizeF_append, sizeF]
  · intro t p st ih
    rw [closeAll_more, ih]
    simp [sizeF, sizeT_pushChild]
    omega

/-- Total number of sections held by a builder state. -/
def totS (s : BStateS) : Nat := sizeF s.roots + sizeF s.stack

theorem totS_step_heading (s : BStateS) (l : Nat) (txt : String) :
    totS (stepS s (.heading l txt)) = totS s + 1 := by
  have h := popS_size l s.roots s.stack
  simp [stepS, totS, sizeF, sizeT]
  omega

theorem totS_step_content (s : BStateS) (f : String) (h : s.stack ≠ []) :
    totS (stepS s (.content f)) = totS s := by
  cases hst : s.stack with
  | nil => exact absurd hst h
  | cons t st =>
    simp [stepS, hst, totS, sizeF, sizeT_addContent]

theorem totS_run (ns : List MNode) (s : BStateS) (h : s.stack ≠ []) :
    totS (runS s ns) = totS s + countH ns := by
  induction ns generalizing s with
  | nil => simp [runS, countH]
  | cons n ns ih =>
    have hstep : (stepS s n).stack ≠ [] := by
      cases n with
      | heading l txt => simp [stepS]
      | content frag =>
        cases hst : s.stack with
        | nil => exact absurd hst h
        | cons t st => simp [stepS, hst]
    have hrec := ih (stepS s n) hstep
    cases n with
    | heading l txt =>
      simp only [runS, List.foldl_cons] at hrec ⊢
      rw [hrec, totS_step_heading, countH]
      omega
    | content frag =>
      simp only [runS, List.foldl_cons] at hrec ⊢
      rw [hrec, totS_step_content s frag h, countH]

/-- Node-count bookkeeping: the built forest has one section per heading
plus one synthesized section when (and only when) the document starts
with a non-heading element. -/
theorem buildTreeS_size (ns : List MNode) :
    sizeF (buildTreeS ns) = countH ns + introCount ns := by
  cases ns with
  | nil => simp [buildTreeS, runS, closeAll_nil, sizeF, countH, introCount]
  | cons n rest =>
    have hone : ∀ s1 : BStateS, s1 = stepS ⟨[], []⟩ n → s1.stack ≠ [] →
        sizeF (closeAll (runS s1 rest).roots (runS s1 rest).stack) =
        totS s1 + countH rest := by
      intro s1 h1 h2
      have := totS_run rest s1 h2
      rw [closeAll_size, ← totS]
      exact this
    cases n with
    | heading l txt =>
      have h1 : stepS ⟨[], []⟩ (.heading l txt) =
          ⟨[], [SecS.mk (strTrim txt) l "" []]⟩ := by
        simp [stepS, popS_nil]
      have := hone _ rfl (by rw [h1]; simp)
      simp only [buildTreeS, runS, List.foldl_cons] at *
      rw [this, h1]
      simp [totS, sizeF, sizeT, countH, introCount]
      omega
    | content frag =>
      have h1 : stepS ⟨[], []⟩ (.content frag) =
          ⟨[], [SecS.mk "Intro" 1 frag []]⟩ := by
        simp [stepS]
      have := hone _ rfl (by rw [h1]; simp)
      simp only [buildTreeS, runS, List.foldl_cons] at *
      rw [this, h1]
      simp [totS, sizeF, sizeT, countH, introCount]
      omega

/-- The emptiness invariant: an empty stack forces an empty root list. -/
def emptyInv (s : BStateS) : Prop :=
  s.stack = [] → s.roots = []

theorem emptyInv_step (s : BStateS) (n : MNode) (h : emptyInv s) :
    emptyInv (stepS s n) := by
  cases n with
  | heading l txt => intro hc; simp [stepS] at hc
  | content frag =>
    cases hst : s.stack with
    | nil =>
      cases hr : s.roots with
      | nil => intro hc; simp [stepS, hst, hr] at hc
      | cons r rs =>
        exact absurd (h hst) (by simp [hr])
    | cons t st => intro hc; simp [stepS, hst] at hc

/-- Two sections agree on title, level and contentHtml (children and id
left free). -/
def sameTLC (a b : SecS) : Prop :=
  a.title = b.title ∧ a.level = b.level ∧ a.contentHtml = b.contentHtml

theorem sameTLC_refl (a : SecS) : sameTLC a a := ⟨rfl, rfl, rfl⟩

theorem sameTLC_trans {a b c : SecS} (h1 : sameTLC a b) (h2 : sameTLC b c) :
    sameTLC a c :=
  ⟨h1.1.trans h2.1, h1.2.1.trans h2.2.1, h1.2.2.trans h2.2.2⟩

theorem sameTLC_pushChild (p c : SecS) : sameTLC (pushChild p c) p := by
  cases p with
  | mk ti l ct ch =>
    exact ⟨rfl, rfl, rfl⟩

theorem popS_roots_mono (l : Nat) (roots : List SecS) : ∀ st : List SecS,
    ∃ ex, (popS l roots st).1 = roots ++ ex := by
  refine popRecAux SecS.level pushChild l _ ?_ ?_ ?_ ?_
  · exact ⟨[], by simp [popS_nil]⟩
  · intro t h
    exact ⟨[t], by simp [popS_last l roots t h]⟩
  · intro t p st' h ih
    rw [popS_more l roots t p st' h]
    exact ih
  · intro t st h
    exact ⟨[], by simp [popS_stop l roots t st (Nat.lt_of_not_le h)]⟩

/-- Popping either keeps the bottom of the stack in place (its title,
level and content untouched) or moves it out as the new last root. -/
theorem popS_bottom (l : Nat) (roots : List SecS) : ∀ st : List SecS,
    ∀ inner b, st = inner ++ [b] →
    (∃ inner' b', (popS l roots st).1 = roots ∧
      (popS l roots st).2 = inner' ++ [b'] ∧ sameTLC b' b) ∨
    (∃ b', (popS l roots st).1 = roots ++ [b'] ∧
      (popS l roots st).2 = [] ∧ sameTLC b' b) := by
  refine popRecAux SecS.level pushChild l _ ?_ ?_ ?_ ?_
  · intro inner b hb
    exact absurd hb (by simp)
  · intro t h inner b hb
    rw [popS_last l roots t h]
    cases inner with
    | nil =>
      simp only [List.nil_append, List.cons.injEq] at hb
      obtain ⟨htb, -⟩ := hb
      subst htb
      exact Or.inr ⟨t, rfl, rfl, sameTLC_refl t⟩
    | cons x xs => simp at hb
  · intro t p st' h ih inner b hb
    rw [popS_more l roots t p st' h]
    cases inner with
    | nil => simp at hb
    | cons i0 inner2 =>
      simp only [List.cons_append, List.cons.injEq] at hb
      obtain ⟨hti, hrest⟩ := hb
      cases inner2 with
      | nil =>
        simp only [List.nil_append, List.cons.injEq] at hrest
        obtain ⟨hpb, hst'⟩ := hrest
        have hdec : pushChild p t :: st' = [] ++ [pushChild p t] := by
          simp [hst']
        have htlc2 : sameTLC (pushChild p t) b := by
          rw [← hpb]
          exact sameTLC_pushChild p t
        rcases ih [] (pushChild p t) hdec with ⟨inner', b', h1, h2, h3⟩ |
          ⟨b', h1, h2, h3⟩
        · exact Or.inl ⟨inner', b', h1, h2, sameTLC_trans h3 htlc2⟩
        · exact Or.inr ⟨b', h1, h2, sameTLC_trans h3 htlc2⟩
      | cons q inner3 =>
        simp only [List.cons_append, List.cons.injEq] at hrest
        obtain ⟨hpq, hst2⟩ := hrest
        have hdec : pushChild p t :: st' = (pushChild p t :: inner3) ++ [b] := by
          simp [hst2]
        rcases ih (pushChild p t :: inner3) b hdec with ⟨inner', b', h1, h2, h3⟩ |
          ⟨b', h1, h2, h3⟩
        · exact Or.inl ⟨inner', b', h1, h2, h3⟩
        · exact Or.inr ⟨b', h1, h2, h3⟩
  · intro t st h inner b hb
    rw [popS_stop l roots t st (Nat.lt_of_not_le h)]
    exact Or.inl ⟨inner, b, rfl, hb, sameTLC_refl b⟩

theorem closeAll_roots_split (roots : List SecS) : ∀ st : List SecS,
    closeAll roots st = roots ++ closeAll [] st := by
  refine closeRecAux pushChild _ ?_ ?_ ?_
  · simp [closeAll_nil]
  · intro t
    simp [closeAll_one]
  · intro t p st ih
    rw [closeAll_more, ih, closeAll_more]

/-- Collapsing a stack turns its bottom into the last root, preserving
the bottom's title, level and content. -/
theorem closeAll_bottom (roots : List SecS) : ∀ st : List SecS,
    ∀ b, ∃ b', closeAll roots (st ++ [b]) = roots ++ [b'] ∧ sameTLC b' b := by
  refine closeRecAux pushChild _ ?_ ?_ ?_
  · intro b
    exact ⟨b, by simp [closeAll_one], sameTLC_refl b⟩
  · intro t b
    refine ⟨pushChild b t, ?_, sameTLC_pushChild b t⟩
    have : ([t] ++ [b]) = t :: b :: [] := by simp
    rw [this, closeAll_more, closeAll_one]
  · intro t p st ih b
    have : ((t :: p :: st) ++ [b]) = t :: p :: (st ++ [b]) := by simp
    rw [this, closeAll_more]
    exact ih b

/-- The tracking invariant for the first root: it either still sits at
the bottom of a stack of depth at least two, or it has been closed as
the head of the root list; in both cases its title, level and content
are those of `b`. -/
def Wfirst (b : SecS) (s : BStateS) : Prop :=
  (s.roots = [] ∧ ∃ inner b', s.stack = inner ++ [b'] ∧ inner ≠ [] ∧ sameTLC b' b) ∨
  (∃ b' rs₀, s.roots = b' :: rs₀ ∧ sameTLC b' b)

theorem stepS_heading_eq (s : BStateS) (l : Nat) (txt : String) :
    stepS s (.heading l txt) =
    ⟨(popS l s.roots s.stack).1,
      SecS.mk (strTrim txt) l "" [] :: (popS l s.roots s.stack).2⟩ := rfl

theorem Wfirst_step (b : SecS) (s : BStateS) (n : MNode)
    (hw : Wfirst b s) (he : emptyInv s) : Wfirst b (stepS s n) := by
  cases n with
  | heading l txt =>
    rw [stepS_heading_eq]
    rcases hw with ⟨hr, inner, b', hst, hin, htlc⟩ | ⟨b', rs₀, hr, htlc⟩
    · rcases popS_bottom l s.roots s.stack inner b' hst with
        ⟨inner', b'', h1, h2, h3⟩ | ⟨b'', h1, h2, h3⟩
      · refine Or.inl ⟨?_, SecS.mk (strTrim txt) l "" [] :: inner', b'', ?_,
          by simp, sameTLC_trans h3 htlc⟩
        · rw [show (⟨(popS l s.roots s.stack).1, _⟩ : BStateS).roots =
            (popS l s.roots s.stack).1 from rfl, h1, hr]
        · rw [show (⟨_, SecS.mk (strTrim txt) l "" [] ::
            (popS l s.roots s.stack).2⟩ : BStateS).stack =
            SecS.mk (strTrim txt) l "" [] :: (popS l s.roots s.stack).2 from rfl,
            h2]
          rfl
      · refine Or.inr ⟨b'', [], ?_, sameTLC_trans h3 htlc⟩
        rw [show (⟨(popS l s.roots s.stack).1, _⟩ : BStateS).roots =
          (popS l s.roots s.stack).1 from rfl, h1, hr]
        rfl
    · obtain ⟨ex, hex⟩ := popS_roots_mono l s.roots s.stack
      refine Or.inr ⟨b', rs₀ ++ ex, ?_, htlc⟩
      rw [show (⟨(popS l s.roots s.stack).1, _⟩ : BStateS).roots =
        (popS l s.roots s.stack).1 from rfl, hex, hr]
      rfl
  | content frag =>
    cases hst : s.stack with
    | nil =>
      have hr := he hst
      rcases hw with ⟨_, inner, b', hst2, hin, _⟩ | ⟨b', rs₀, hr2, _⟩
      · rw [hst] at hst2
        exact absurd hst2.symm (by simp)
      · rw [hr] at hr2
        exact absurd hr2 (by simp)
    | cons t st =>
      have hse : stepS s (.content frag) = ⟨s.roots, addContent t frag :: st⟩ := by
        simp [stepS, hst]
      rw [hse]
      rcases hw with ⟨hr, inner, b', hst2, hin, htlc⟩ | ⟨b', rs₀, hr, htlc⟩
      · rw [hst] at hst2
        cases inner with
        | nil => simp at hin
        | cons i0 inner2 =>
          simp only [List.cons_append, List.cons.injEq] at hst2
          refine Or.inl ⟨hr, addContent t frag :: inner2, b', ?_, by simp, htlc⟩
          show addContent t frag :: st = (addContent t frag :: inner2) ++ [b']
          simp [hst2.2]
      · exact Or.inr ⟨b', rs₀, hr, htlc⟩

theorem Wfirst_run (b : SecS) (ns : List MNode) (s : BStateS)
    (hw : Wfirst b s) (he : emptyInv s) : Wfirst b (runS s ns) := by
  induction ns generalizing s with
  | nil => simpa [runS]
  | cons n ns ih =>
    have h1 := Wfirst_step b s n hw he
    have h2 := emptyInv_step s n he
    simpa [runS, List.foldl_cons] using ih (stepS s n) h1 h2

theorem sameTLC_eta {x y : SecS} (h : sameTLC x y) :
    x = SecS.mk y.title y.level y.contentHtml x.children := by
  cases x with
  | mk a1 a2 a3 a4 =>
    obtain ⟨e1, e2, e3⟩ := h
    simp only [SecS.title, SecS.level, SecS.contentHtml, SecS.children] at *
    rw [e1, e2, e3]

theorem Wfirst_final (b : SecS) (s : BStateS) (hw : Wfirst b s) :
    ∃ cs rs₀, closeAll s.roots s.stack =
      SecS.mk b.title b.level b.contentHtml cs :: rs₀ := by
  rcases hw with ⟨hr, inner, b', hst, _, htlc⟩ | ⟨b', rs₀, hr, htlc⟩
  · obtain ⟨b'', h1, h2⟩ := closeAll_bottom s.roots inner b'
    have h3 := sameTLC_trans h2 htlc
    refine ⟨b''.children, [], ?_⟩
    rw [hst, h1, hr, ← sameTLC_eta h3]
    rfl
  · refine ⟨b'.children, rs₀ ++ closeAll [] s.stack, ?_⟩
    rw [hr, closeAll_roots_split, ← sameTLC_eta htlc]
    rfl

/-- Running the builder over non-heading fragments with the `Intro`
section as the only open section appends every fragment to it. -/
theorem run_content_prefix : ∀ pre : List MNode,
    (∀ n ∈ pre, isHeadingN n = false) → ∀ c : String,
    runS ⟨[], [SecS.mk "Intro" 1 c []]⟩ pre =
    ⟨[], [SecS.mk "Intro" 1 (c ++ joinFrags pre) []]⟩ := by
  intro pre
  induction pre with
  | nil =>
    intro _ c
    simp [runS, joinFrags]
  | cons n pre' ih =>
    intro hall c
    cases n with
    | heading l txt =>
      have := hall (MNode.heading l txt) (by simp)
      simp [isHeadingN] at this
    | content f =>
      have h1 : stepS ⟨[], [SecS.mk "Intro" 1 c []]⟩ (.content f) =
          ⟨[], [SecS.mk "Intro" 1 (c ++ f) []]⟩ := by
        simp [stepS, addContent, SecS.title, SecS.level, SecS.contentHtml,
          SecS.children]
      have h2 := ih (fun n hn => hall n (by simp [hn])) (c ++ f)
      simp only [runS, List.foldl_cons] at *
      rw [h1, h2, joinFrags, String.append_assoc]

/-! Claim C9: once the first element has been processed the stack is
never empty again at a loop boundary, so the branch
`tree[0].contentHtml += htmlFragment` (stack empty, tree non-empty) is
dead code.  `stepNF` is `stepS` with that branch replaced by a no-op;
the builders coincide. -/

/-- Variant of `stepS` whose unreachable fallback branch drops the
fragment instead of appending it to the first root. -/
def stepNF (s : BStateS) (n : MNode) : BStateS :=
  match n with
  | .heading l txt =>
    let rs := popS l s.roots s.stack
    ⟨rs.1, SecS.mk (strTrim txt) l "" [] :: rs.2⟩
  | .content frag =>
    match s.stack with
    | t :: st => ⟨s.roots, addContent t frag :: st⟩
    | [] =>
      match s.roots with
      | [] => ⟨[], [SecS.mk "Intro" 1 frag []]⟩
      | r :: rs => ⟨r :: rs, []⟩

def buildTreeNF (ns : List MNode) : List SecS :=
  let s := (ns.foldl stepNF ⟨[], []⟩)
  closeAll s.roots s.stack

theorem stack_ne_step (s : BStateS) (n : MNode) (h : emptyInv s) :
    (stepS s n).stack ≠ [] := by
  cases n with
  | heading l txt => simp [stepS]
  | content frag =>
    cases hst : s.stack with
    | nil =>
      cases hr : s.roots with
      | nil => simp [stepS, hst, hr]
      | cons r rs => exact absurd (h hst) (by simp [hr])
    | cons t st => simp [stepS, hst]

theorem stepS_eq_stepNF (s : BStateS) (n : MNode) (h : emptyInv s) :
    stepS s n = stepNF s n := by
  cases n with
  | heading l txt => rfl
  | content frag =>
    cases hst : s.stack with
    | nil =>
      cases hr : s.roots with
      | nil => simp [stepS, stepNF, hst, hr]
      | cons r rs => exact absurd (h hst) (by simp [hr])
    | cons t st => simp [stepS, stepNF, hst]

theorem emptyInv_run (ns : List MNode) (s : BStateS) (h : emptyInv s) :
    emptyInv (runS s ns) := by
  induction ns generalizing s with
  | nil => simpa [runS]
  | cons n ns ih =>
    have := ih (stepS s n) (emptyInv_step s n h)
    simpa [runS, List.foldl_cons] using this

theorem stack_ne_run (ns : List MNode) (s : BStateS)
    (h : s.stack ≠ []) : (runS s ns).stack ≠ [] := by
  induction ns generalizing s with
  | nil => simpa [runS]
  | cons n ns ih =>
    have hstep : (stepS s n).stack ≠ [] := by
      cases n with
      | heading l txt => simp [stepS]
      | content frag =>
        cases hst : s.stack with
        | nil => exact absurd hst h
        | cons t st => simp [stepS, hst]
    have := ih (stepS s n) hstep
    simpa [runS, List.foldl_cons] using this

theorem runS_eq_runNF (ns : List MNode) (s : BStateS) (h : emptyInv s) :
    runS s ns = ns.foldl stepNF s := by
  induction ns generalizing s with
  | nil => simp [runS]
  | cons n ns ih =>
    have h2 := emptyInv_step s n h
    have := ih (stepS s n) h2
    simpa [runS, List.foldl_cons, stepS_eq_stepNF s n h] using this

/-- C9: once the first top-level element has been processed, the stack
of open sections is non-empty at every later loop boundary, and
consequently the fallback branch that appends a pre-heading fragment to
the first root when the stack is empty but the tree is not is
unreachable: replacing its body by a no-op (`stepNF`) leaves the built
tree unchanged, so every non-heading fragment after the first element is
handled by the stack-top branch. -/
theorem claim_C9 (ns : List MNode) (hne : ns ≠ []) :
    (∀ k : Nat, (runS ⟨[], []⟩ (List.take (k + 1) ns)).stack ≠ []) ∧
    buildTreeS ns = buildTreeNF ns := by
  constructor
  · intro k
    cases ns with
    | nil => exact absurd rfl hne
    | cons n ns' =>
      have h1 : (stepS ⟨[], []⟩ n).stack ≠ [] :=
        stack_ne_step ⟨[], []⟩ n (by intro h; rfl)
      have : runS ⟨[], []⟩ (List.take (k + 1) (n :: ns')) =
          runS (stepS ⟨[], []⟩ n) (List.take k ns') := by
        simp [runS, List.take_succ_cons, List.foldl_cons]
      rw [this]
      exact stack_ne_run _ _ h1
  · have := runS_eq_runNF ns ⟨[], []⟩ (by intro h; rfl)
    simp [buildTreeS, buildTreeNF, this]

/-- Closed instance of C9 on the concrete example input of the spec. -/
theorem claim_C9_witness :
    ([MNode.heading 1 "A", MNode.content "<p>x</p>", MNode.heading 2 "B",
      MNode.content "<p>y</p>", MNode.heading 1 "C"] ≠ ([] : List MNode)) ∧
    ((∀ k : Nat, (runS ⟨[], []⟩ (List.take (k + 1)
        [MNode.heading 1 "A", MNode.content "<p>x</p>", MNode.heading 2 "B",
         MNode.content "<p>y</p>", MNode.heading 1 "C"])).stack ≠ []) ∧
      buildTreeS [MNode.heading 1 "A", MNode.content "<p>x</p>", MNode.heading 2 "B",
         MNode.content "<p>y</p>", MNode.heading 1 "C"] =
      buildTreeNF [MNode.heading 1 "A", MNode.content "<p>x</p>", MNode.heading 2 "B",
         MNode.content "<p>y</p>", MNode.heading 1 "C"]) :=
  ⟨by simp, claim_C9 _ (by simp)⟩

@[simp] theorem pushChild_title (p c : SecS) : (pushChild p c).title = p.title := rfl

@[simp] theorem pushChild_level (p c : SecS) : (pushChild p c).level = p.level := rfl

@[simp] theorem pushChild_contentHtml (p c : SecS) :
    (pushChild p c).contentHtml = p.contentHtml := rfl

@[simp] theorem pushChild_children (p c : SecS) :
    (pushChild p c).children = p.children ++ [c] := rfl

@[simp] theorem addContent_title (t : SecS) (f : String) :
    (addContent t f).title = t.title := rfl

@[simp] theorem addContent_level (t : SecS) (f : String) :
    (addContent t f).level = t.level := rfl

@[simp] theorem addContent_contentHtml (t : SecS) (f : String) :
    (addContent t f).contentHtml = t.contentHtml ++ f := rfl

@[simp] theorem addContent_children (t : SecS) (f : String) :
    (addContent t f).children = t.children := rfl

theorem head?_dropWhile_not (p : Char → Bool) :
    ∀ l : List Char, ∀ c, (l.dropWhile p).head? = some c → p c = false := by
  intro l
  induction l with
  | nil => intro c h; simp [List.dropWhile] at h
  | cons a as ih =>
    intro c h
    by_cases hp : p a
    · rw [List.dropWhile_cons_of_pos hp] at h
      exact ih c h
    · rw [List.dropWhile_cons_of_neg hp] at h
      simp at h
      rw [← h]
      simpa using hp

theorem dropWhile_head_false (p : Char → Bool) (l : List Char)
    (h : ∀ c, l.head? = some c → p c = false) : l.dropWhile p = l := by
  cases l with
  | nil => rfl
  | cons a as =>
    have := h a rfl
    simp [List.dropWhile_cons, this]

theorem getLast?_dropWhile (p : Char → Bool) :
    ∀ l : List Char, l.dropWhile p ≠ [] →
    (l.dropWhile p).getLast? = l.getLast? := by
  intro l
  induction l with
  | nil => intro h; simp [List.dropWhile] at h
  | cons a as ih =>
    intro h
    by_cases hp : p a
    · rw [List.dropWhile_cons_of_pos hp] at h ⊢
      rw [ih h]
      have has : as ≠ [] := by
        intro he
        rw [he] at h
        simp [List.dropWhile] at h
      cases as with
      | nil => exact absurd rfl has
      | cons b bs => simp [List.getLast?_cons_cons]
    · rw [List.dropWhile_cons_of_neg hp]

theorem trimChars_idem (l : List Char) : trimChars (trimChars l) = trimChars l := by
  set A := l.dropWhile wsp with hA
  set C := A.reverse.dropWhile wsp with hC
  have hy : trimChars l = C.reverse := rfl
  have hyhead : ∀ c, (trimChars l).head? = some c → wsp c = false := by
    intro c h
    rw [hy, List.head?_reverse] at h
    by_cases hc : C = []
    · rw [hc] at h; simp at h
    · rw [hC, getLast?_dropWhile wsp _ (by rw [← hC]; exact hc),
        List.getLast?_reverse] at h
      exact head?_dropWhile_not wsp l c (by rw [← hA]; exact h)
  have hylast : ∀ c, (trimChars l).getLast? = some c → wsp c = false := by
    intro c h
    rw [hy, List.getLast?_reverse] at h
    exact head?_dropWhile_not wsp A.reverse c h
  show (((trimChars l).dropWhile wsp).reverse.dropWhile wsp).reverse = trimChars l
  rw [dropWhile_head_false wsp _ hyhead]
  rw [dropWhile_head_false wsp (trimChars l).reverse
    (fun c hc => hylast c (by rwa [List.head?_reverse] at hc))]
  simp

theorem toList_asString (l : List Char) : (l.asString).toList = l := rfl

theorem strTrim_idem (s : String) : strTrim (strTrim s) = strTrim s := by
  show (trimChars ((trimChars s.toList).asString).toList).asString =
    (trimChars s.toList).asString
  rw [toList_asString, trimChars_idem]

/-! Structural invariants of built trees.  A built forest always has:
titles fixed by trimming, every child strictly deeper than its parent,
sibling levels non-increasing left to right (a later sibling closed the
earlier one, so its level is at most the earlier one's), and root levels
non-increasing.  They are proved by an invariant on the builder state
and reused for the round-trip analysis. -/

/-- Every section of the list is strictly deeper than level `l`. -/
def allGT (l : Nat) : List SecS → Bool
| [] => true
| c :: cs => decide (l < c.level) && allGT l cs

/-- Consecutive levels are non-increasing. -/
def sibNI : List SecS → Bool
| [] => true
| [_] => true
| a :: b :: r => decide (b.level ≤ a.level) && sibNI (b :: r)

mutual

/-- Structural invariant of one built section: trimmed title, children
strictly deeper, sibling levels non-increasing, children invariant. -/
def okT : SecS → Bool
| .mk ti l _ ch => (strTrim ti == ti) && allGT l ch && sibNI ch && okF ch

/-- Structural invariant of a list of built sections. -/
def okF : List SecS → Bool
| [] => true
| t :: ts => okT t && okF ts

end

/-- Stack levels strictly decrease from top (head) to bottom. -/
def stkSorted : List SecS → Bool
| [] => true
| [_] => true
| a :: b :: r => decide (b.level < a.level) && stkSorted (b :: r)

/-- The last child of `b`, if any, is at level at least `l`. -/
def lastChildGE (b : SecS) (l : Nat) : Bool :=
  match b.children.getLast? with
  | none => true
  | some c => decide (l ≤ c.level)

/-- Each open section's last closed child is at least as deep as the
open section directly above it (the next section to be attached). -/
def stkLinks : List SecS → Bool
| [] => true
| [_] => true
| a :: b :: r => lastChildGE b a.level && stkLinks (b :: r)

/-- Like `stkLinks` with a virtual incoming level `l` above the top. -/
def stkLinksL (l : Nat) : List SecS → Bool
| [] => true
| t :: rest => lastChildGE t l && stkLinks (t :: rest)

/-- The top of the stack has no children yet (it is the most recently
pushed node). -/
def topLeaf : List SecS → Bool
| [] => true
| t :: _ => t.children.isEmpty

/-- The bottom of the stack is at most as deep as the last closed root. -/
def lastLevGE (roots st : List SecS) : Bool :=
  match roots.getLast?, st.getLast? with
  | some r, some b => decide (b.level ≤ r.level)
  | _, _ => true

/-- Between-iterations invariant of the builder state. -/
def SOK (s : BStateS) : Prop :=
  okF s.roots = true ∧ sibNI s.roots = true ∧ okF s.stack = true ∧
  stkSorted s.stack = true ∧ stkLinks s.stack = true ∧
  topLeaf s.stack = true ∧ (s.stack = [] → s.roots = []) ∧
  lastLevGE s.roots s.stack = true

theorem okF_append (a b : List SecS) :
    okF (a ++ b) = (okF a && okF b) := by
  induction a with
  | nil => simp [okF]
  | cons t ts ih => simp [okF, ih, Bool.and_assoc]

theorem allGT_append (l : Nat) (a b : List SecS) :
    allGT l (a ++ b) = (allGT l a && allGT l b) := by
  induction a with
  | nil => simp [allGT]
  | cons c cs ih => simp [allGT, ih, Bool.and_assoc]

theorem sibNI_append_one (t : SecS) : ∀ a : List SecS, sibNI a = true →
    (∀ r, a.getLast? = some r → t.level ≤ r.level) → sibNI (a ++ [t]) = true := by
  intro a
  induction a with
  | nil => intro _ _; simp [sibNI]
  | cons x xs ih =>
    intro hs hl
    cases xs with
    | nil =>
      have := hl x rfl
      simp [sibNI, this]
    | cons y ys =>
      rw [sibNI] at hs
      simp only [Bool.and_eq_true] at hs
      have hr := ih hs.2 (fun r hr => hl r (by
        cases ys with
        | nil => simpa using hr
        | cons z zs => rw [List.getLast?_cons_cons]; exact hr))
      show sibNI (x :: ((y :: ys) ++ [t])) = true
      cases ys with
      | nil => simp_all [sibNI]
      | cons z zs => simp_all [sibNI]

theorem okT_addContent (t : SecS) (f : String) :
    okT (addContent t f) = okT t := by
  cases t with
  | mk ti l c ch => rfl

theorem okT_pushChild (p t : SecS) (hp : okT p = true) (ht : okT t = true)
    (hlt : p.level < t.level) (hle : lastChildGE p t.level = true) :
    okT (pushChild p t) = true := by
  cases p with
  | mk ti l c ch =>
    have hpc : pushChild (SecS.mk ti l c ch) t = SecS.mk ti l c (ch ++ [t]) := rfl
    rw [hpc]
    rw [okT] at hp ⊢
    simp only [Bool.and_eq_true] at hp ⊢
    refine ⟨⟨⟨hp.1.1.1, ?_⟩, ?_⟩, ?_⟩
    · rw [allGT_append]
      simp only [Bool.and_eq_true]
      refine ⟨hp.1.1.2, ?_⟩
      simp only [allGT, Bool.and_eq_true, decide_eq_true_eq, and_true]
      simpa [SecS.level] using hlt
    · refine sibNI_append_one t ch hp.1.2 ?_
      intro r hr
      rw [lastChildGE] at hle
      simp only [SecS.children] at hle
      rw [hr] at hle
      simpa using hle
    · rw [okF_append]
      simp [hp.2, okF, ht]

theorem stkSorted_push (p t : SecS) (st' : List SecS) :
    stkSorted (pushChild p t :: st') = stkSorted (p :: st') := by
  cases st' with
  | nil => rfl
  | cons q r => simp [stkSorted]

theorem stkLinks_push (p t : SecS) (st' : List SecS) :
    stkLinks (pushChild p t :: st') = stkLinks (p :: st') := by
  cases st' with
  | nil => rfl
  | cons q r => simp [stkLinks]

theorem lastLevGE_nil_right (roots : List SecS) : lastLevGE roots [] = true := by
  unfold lastLevGE
  cases roots.getLast? <;> rfl

theorem lastLevGE_cons_cons (roots : List SecS) (t p : SecS) (st' : List SecS) :
    lastLevGE roots (t :: p :: st') = lastLevGE roots (p :: st') := by
  unfold lastLevGE
  rw [List.getLast?_cons_cons]

theorem lastLevGE_push (roots : List SecS) (p t : SecS) (st' : List SecS) :
    lastLevGE roots (pushChild p t :: st') = lastLevGE roots (p :: st') := by
  cases st' with
  | nil =>
    unfold lastLevGE
    cases roots.getLast? <;> rfl
  | cons q r =>
    unfold lastLevGE
    rw [List.getLast?_cons_cons, List.getLast?_cons_cons]

theorem lastLevGE_spec (roots st : List SecS) (h : lastLevGE roots st = true)
    (b r : SecS) (hb : st.getLast? = some b) (hr : roots.getLast? = some r) :
    b.level ≤ r.level := by
  unfold lastLevGE at h
  rw [hb, hr] at h
  simpa using h

/-- Popping preserves every structural invariant and additionally leaves
a stack whose top is strictly shallower than `l` (with its last child at
least `l` deep), and, when the stack empties, a last root at least `l`
deep. -/
theorem popS_SOK (l : Nat) (roots : List SecS)
    (hr1 : okF roots = true) (hr2 : sibNI roots = true) :
    ∀ st : List SecS, okF st = true → stkSorted st = true →
      stkLinksL l st = true → lastLevGE roots st = true →
      (st = [] → roots = []) →
    okF (popS l roots st).1 = true ∧ sibNI (popS l roots st).1 = true ∧
    okF (popS l roots st).2 = true ∧ stkSorted (popS l roots st).2 = true ∧
    stkLinksL l (popS l roots st).2 = true ∧
    lastLevGE (popS l roots st).1 (popS l roots st).2 = true ∧
    (∀ t rest, (popS l roots st).2 = t :: rest → t.level < l) ∧
    ((popS l roots st).2 = [] → ∀ r, ((popS l roots st).1).getLast? = some r →
      l ≤ r.level) := by
  refine popRecAux SecS.level pushChild l _ ?_ ?_ ?_ ?_
  · intro _ _ _ _ h5
    rw [popS_nil]
    have hre := h5 rfl
    refine ⟨hr1, hr2, rfl, rfl, rfl, lastLevGE_nil_right roots, ?_, ?_⟩
    · intro t rest h
      simp at h
    · intro _ r hrl
      rw [hre] at hrl
      simp at hrl
  · intro t hlt h1 h2 h3 h4 _
    rw [popS_last l roots t hlt]
    rw [okF] at h1
    simp only [Bool.and_eq_true] at h1
    refine ⟨?_, ?_, rfl, rfl, rfl, lastLevGE_nil_right _, ?_, ?_⟩
    · rw [okF_append]
      simp [hr1, okF, h1.1]
    · refine sibNI_append_one t roots hr2 ?_
      intro r hrl
      exact lastLevGE_spec roots [t] h4 t r rfl hrl
    · intro x rest h
      simp at h
    · intro _ r hrl
      rw [List.getLast?_concat] at hrl
      cases hrl
      exact hlt
  · intro t p st' hlt ih h1 h2 h3 h4 _
    rw [popS_more l roots t p st' hlt]
    rw [okF] at h1
    simp only [Bool.and_eq_true] at h1
    have hokt := h1.1
    have h1' := h1.2
    rw [okF] at h1'
    simp only [Bool.and_eq_true] at h1'
    have hokp := h1'.1
    have hokst := h1'.2
    rw [stkSorted] at h2
    simp only [Bool.and_eq_true, decide_eq_true_eq] at h2
    rw [stkLinksL, stkLinks] at h3
    simp only [Bool.and_eq_true] at h3
    refine ih ?_ ?_ ?_ ?_ (by simp)
    · rw [okF]
      simp only [Bool.and_eq_true]
      exact ⟨okT_pushChild p t hokp hokt h2.1 h3.2.1, hokst⟩
    · rw [stkSorted_push]
      exact h2.2
    · rw [stkLinksL]
      simp only [Bool.and_eq_true]
      constructor
      · rw [lastChildGE]
        simp only [pushChild_children, List.getLast?_concat]
        simpa using hlt
      · rw [stkLinks_push]
        exact h3.2.2
    · rw [lastLevGE_push]
      rw [lastLevGE_cons_cons] at h4
      exact h4
  · intro t st hnlt h1 h2 h3 h4 _
    have hlt : t.level < l := Nat.lt_of_not_le hnlt
    rw [popS_stop l roots t st hlt]
    refine ⟨hr1, hr2, h1, h2, h3, h4, ?_, ?_⟩
    · intro x rest h
      cases h
      exact hlt
    · intro h
      simp at h

theorem stkSorted_addC (t : SecS) (f : String) (st : List SecS) :
    stkSorted (addContent t f :: st) = stkSorted (t :: st) := by
  cases st with
  | nil => rfl
  | cons q r => simp [stkSorted]

theorem stkLinks_addC (t : SecS) (f : String) (st : List SecS) :
    stkLinks (addContent t f :: st) = stkLinks (t :: st) := by
  cases st with
  | nil => rfl
  | cons q r => simp [stkLinks]

theorem lastLevGE_addC (roots : List SecS) (t : SecS) (f : String)
    (st : List SecS) :
    lastLevGE roots (addContent t f :: st) = lastLevGE roots (t :: st) := by
  cases st with
  | nil =>
    unfold lastLevGE
    cases roots.getLast? <;> rfl
  | cons q r =>
    unfold lastLevGE
    rw [List.getLast?_cons_cons, List.getLast?_cons_cons]

theorem SOK_step (s : BStateS) (n : MNode) (h : SOK s) : SOK (stepS s n) := by
  obtain ⟨h1, h2, h3, h4, h5, h6, h7, h8⟩ := h
  cases n with
  | heading l txt =>
    rw [stepS_heading_eq]
    have hLL : stkLinksL l s.stack = true := by
      cases hst : s.stack with
      | nil => rfl
      | cons t rest =>
        rw [hst] at h5 h6
        rw [stkLinksL]
        simp only [Bool.and_eq_true]
        refine ⟨?_, h5⟩
        rw [topLeaf] at h6
        have hch : t.children = [] := by
          cases hc : t.children with
          | nil => rfl
          | cons a b => rw [hc] at h6; simp [List.isEmpty] at h6
        rw [lastChildGE, hch]
        rfl
    have hp := popS_SOK l s.roots h1 h2 s.stack h3 h4 hLL h8 h7
    obtain ⟨p1, p2, p3, p4, p5, p6, p7, p8⟩ := hp
    refine ⟨p1, p2, ?_, ?_, ?_, ?_, by simp, ?_⟩
    · show okF (SecS.mk (strTrim txt) l "" [] :: (popS l s.roots s.stack).2) = true
      rw [okF, okT]
      simp only [Bool.and_eq_true]
      refine ⟨⟨⟨⟨?_, rfl⟩, rfl⟩, rfl⟩, p3⟩
      rw [strTrim_idem]
      simp
    · show stkSorted (SecS.mk (strTrim txt) l "" [] ::
        (popS l s.roots s.stack).2) = true
      cases hp2 : (popS l s.roots s.stack).2 with
      | nil => rfl
      | cons t rest =>
        rw [stkSorted]
        simp only [Bool.and_eq_true, decide_eq_true_eq]
        refine ⟨?_, by rw [← hp2]; exact p4⟩
        have := p7 t rest hp2
        simpa [SecS.level] using this
    · show stkLinks (SecS.mk (strTrim txt) l "" [] ::
        (popS l s.roots s.stack).2) = true
      cases hp2 : (popS l s.roots s.stack).2 with
      | nil => rfl
      | cons t rest =>
        rw [hp2] at p5
        rw [stkLinksL] at p5
        simp only [Bool.and_eq_true] at p5
        rw [stkLinks]
        simp only [Bool.and_eq_true]
        exact ⟨by simpa [SecS.level] using p5.1, p5.2⟩
    · show topLeaf (SecS.mk (strTrim txt) l "" [] ::
        (popS l s.roots s.stack).2) = true
      rfl
    · show lastLevGE (popS l s.roots s.stack).1
        (SecS.mk (strTrim txt) l "" [] :: (popS l s.roots s.stack).2) = true
      cases hp2 : (popS l s.roots s.stack).2 with
      | nil =>
        unfold lastLevGE
        cases hgl : ((popS l s.roots s.stack).1).getLast? with
        | none => rfl
        | some r =>
          have := p8 hp2 r hgl
          simpa [SecS.level] using this
      | cons t rest =>
        rw [lastLevGE_cons_cons, ← hp2]
        exact p6
  | content frag =>
    cases hst : s.stack with
    | nil =>
      have hre := h7 hst
      cases hrr : s.roots with
      | cons r rs => exact absurd hre (by simp [hrr])
      | nil =>
        have hse : stepS s (.content frag) =
            ⟨[], [SecS.mk "Intro" 1 frag []]⟩ := by
          simp [stepS, hst, hrr]
        rw [hse]
        refine ⟨rfl, rfl, ?_, rfl, rfl, rfl, by simp, ?_⟩
        · show okF [SecS.mk "Intro" 1 frag []] = true
          rw [okF, okT]
          decide
        · show lastLevGE [] [SecS.mk "Intro" 1 frag []] = true
          rfl
    | cons t st =>
      have hse : stepS s (.content frag) = ⟨s.roots, addContent t frag :: st⟩ := by
        simp [stepS, hst]
      rw [hse]
      rw [hst] at h3 h4 h5 h6 h8
      rw [okF] at h3
      simp only [Bool.and_eq_true] at h3
      refine ⟨h1, h2, ?_, ?_, ?_, ?_, by simp, ?_⟩
      · show okF (addContent t frag :: st) = true
        rw [okF, okT_addContent]
        simp [h3.1, h3.2]
      · show stkSorted (addContent t frag :: st) = true
        rw [stkSorted_addC]
        exact h4
      · show stkLinks (addContent t frag :: st) = true
        rw [stkLinks_addC]
        exact h5
      · show topLeaf (addContent t frag :: st) = true
        rw [topLeaf] at h6 ⊢
        simpa using h6
      · show lastLevGE s.roots (addContent t frag :: st) = true
        rw [lastLevGE_addC]
        exact h8

theorem SOK_init : SOK ⟨[], []⟩ :=
  ⟨rfl, rfl, rfl, rfl, rfl, rfl, fun _ => rfl, rfl⟩

theorem SOK_run (ns : List MNode) (s : BStateS) (h : SOK s) :
    SOK (runS s ns) := by
  induction ns generalizing s with
  | nil => simpa [runS]
  | cons n ns ih =>
    have h1 := SOK_step s n h
    simpa [runS, List.foldl_cons] using ih (stepS s n) h1

theorem closeAll_SOK (roots : List SecS)
    (hr1 : okF roots = true) (hr2 : sibNI roots = true) :
    ∀ st : List SecS, okF st = true → stkSorted st = true →
      stkLinks st = true → lastLevGE roots st = true →
    okF (closeAll roots st) = true ∧ sibNI (closeAll roots st) = true := by
  refine closeRecAux pushChild _ ?_ ?_ ?_
  · intro _ _ _ _
    rw [closeAll_nil]
    exact ⟨hr1, hr2⟩
  · intro t h1 h2 h3 h4
    rw [closeAll_one]
    rw [okF] at h1
    simp only [Bool.and_eq_true] at h1
    constructor
    · rw [okF_append]
      simp [hr1, okF, h1.1]
    · refine sibNI_append_one t roots hr2 ?_
      intro r hrl
      exact lastLevGE_spec roots [t] h4 t r rfl hrl
  · intro t p st ih h1 h2 h3 h4
    rw [closeAll_more]
    rw [okF] at h1
    simp only [Bool.and_eq_true] at h1
    have h1' := h1.2
    rw [okF] at h1'
    simp only [Bool.and_eq_true] at h1'
    rw [stkSorted] at h2
    simp only [Bool.and_eq_true, decide_eq_true_eq] at h2
    rw [stkLinks] at h3
    simp only [Bool.and_eq_true] at h3
    refine ih ?_ ?_ ?_ ?_
    · rw [okF]
      simp only [Bool.and_eq_true]
      exact ⟨okT_pushChild p t h1'.1 h1.1 h2.1 h3.1, h1'.2⟩
    · rw [stkSorted_push]
      exact h2.2
    · rw [stkLinks_push]
      exact h3.2
    · rw [lastLevGE_push]
      rw [lastLevGE_cons_cons] at h4
      exact h4

/-- Every forest built by the Tree Builder satisfies the structural
invariant: trimmed titles, strictly deeper children, non-increasing
sibling levels, non-increasing root levels. -/
theorem buildTreeS_SOK (ns : List MNode) :
    okF (buildTreeS ns) = true ∧ sibNI (buildTreeS ns) = true := by
  have h := SOK_run ns ⟨[], []⟩ SOK_init
  obtain ⟨h1, h2, h3, h4, h5, h6, h7, h8⟩ := h
  exact closeAll_SOK _ h1 h2 _ h3 h4 h5 h8

mutual

/-- Every child of every section is strictly deeper than its parent. -/
def gtT : SecS → Bool
| .mk _ l _ ch => allGT l ch && gtF ch

def gtF : List SecS → Bool
| [] => true
| t :: ts => gtT t && gtF ts

end

mutual

/-- Every level in the tree lies between 1 and 6. -/
def rngT : SecS → Bool
| .mk _ l _ ch => decide (1 ≤ l) && decide (l ≤ 6) && rngF ch

def rngF : List SecS → Bool
| [] => true
| t :: ts => rngT t && rngF ts

end

/-- Every heading element of the input has a level between 1 and 6 (as
guaranteed by the `^H([1-6])$` tag match of the source). -/
def levelsOKIn : List MNode → Bool
| [] => true
| .heading l _ :: rest => decide (1 ≤ l) && decide (l ≤ 6) && levelsOKIn rest
| .content _ :: rest => levelsOKIn rest

mutual

theorem okT_gtT (t : SecS) (h : okT t = true) : gtT t = true := by
  cases t with
  | mk ti l c ch =>
    rw [okT] at h
    simp only [Bool.and_eq_true] at h
    rw [gtT]
    simp only [Bool.and_eq_true]
    exact ⟨h.1.1.2, okF_gtF ch h.2⟩

theorem okF_gtF (f : List SecS) (h : okF f = true) : gtF f = true := by
  cases f with
  | nil => rfl
  | cons t ts =>
    rw [okF] at h
    simp only [Bool.and_eq_true] at h
    rw [gtF]
    simp only [Bool.and_eq_true]
    exact ⟨okT_gtT t h.1, okF_gtF ts h.2⟩

end

theorem rngF_append (a b : List SecS) :
    rngF (a ++ b) = (rngF a && rngF b) := by
  induction a with
  | nil => simp [rngF]
  | cons t ts ih => simp [rngF, ih, Bool.and_assoc]

theorem rngT_pushChild (p t : SecS) (hp : rngT p = true) (ht : rngT t = true) :
    rngT (pushChild p t) = true := by
  cases p with
  | mk ti l c ch =>
    have hpc : pushChild (SecS.mk ti l c ch) t = SecS.mk ti l c (ch ++ [t]) := rfl
    rw [hpc]
    rw [rngT] at hp ⊢
    simp only [Bool.and_eq_true] at hp ⊢
    exact ⟨hp.1, by rw [rngF_append]; simp [hp.2, rngF, ht]⟩

theorem rngT_addContent (t : SecS) (f : String) :
    rngT (addContent t f) = rngT t := by
  cases t with
  | mk ti l c ch => rfl

theorem rng_popS (l : Nat) (roots : List SecS) (hr : rngF roots = true) :
    ∀ st : List SecS, rngF st = true →
    rngF (popS l roots st).1 = true ∧ rngF (popS l roots st).2 = true := by
  refine popRecAux SecS.level pushChild l _ ?_ ?_ ?_ ?_
  · intro _
    rw [popS_nil]
    exact ⟨hr, rfl⟩
  · intro t h hs
    rw [popS_last l roots t h]
    rw [rngF] at hs
    simp only [Bool.and_eq_true] at hs
    exact ⟨by rw [rngF_append]; simp [hr, rngF, hs.1], rfl⟩
  · intro t p st' h ih hs
    rw [popS_more l roots t p st' h]
    rw [rngF] at hs
    simp only [Bool.and_eq_true] at hs
    have hs' := hs.2
    rw [rngF] at hs'
    simp only [Bool.and_eq_true] at hs'
    refine ih ?_
    rw [rngF]
    simp only [Bool.and_eq_true]
    exact ⟨rngT_pushChild p t hs'.1 hs.1, hs'.2⟩
  · intro t st h hs
    rw [popS_stop l roots t st (Nat.lt_of_not_le h)]
    exact ⟨hr, hs⟩

theorem rng_closeAll (roots : List SecS) (hr : rngF roots = true) :
    ∀ st : List SecS, rngF st = true → rngF (closeAll roots st) = true := by
  refine closeRecAux pushChild _ ?_ ?_ ?_
  · intro _
    rw [closeAll_nil]
    exact hr
  · intro t hs
    rw [closeAll_one, rngF_append]
    rw [rngF] at hs
    simp only [Bool.and_eq_true] at hs
    simp [hr, rngF, hs.1]
  · intro t p st ih hs
    rw [closeAll_more]
    rw [rngF] at hs
    simp only [Bool.and_eq_true] at hs
    have hs' := hs.2
    rw [rngF] at hs'
    simp only [Bool.and_eq_true] at hs'
    refine ih ?_
    rw [rngF]
    simp only [Bool.and_eq_true]
    exact ⟨rngT_pushChild p t hs'.1 hs.1, hs'.2⟩

theorem rng_run (ns : List MNode) (s : BStateS) (h : levelsOKIn ns = true)
    (hr : rngF s.roots = true) (hs : rngF s.stack = true) :
    rngF (runS s ns).roots = true ∧ rngF (runS s ns).stack = true := by
  induction ns generalizing s with
  | nil => exact ⟨by simpa [runS], by simpa [runS]⟩
  | cons n ns ih =>
    have hstep : rngF (stepS s n).roots = true ∧ rngF (stepS s n).stack = true ∧
        levelsOKIn ns = true := by
      cases n with
      | heading l txt =>
        rw [levelsOKIn] at h
        simp only [Bool.and_eq_true, decide_eq_true_eq] at h
        have hp := rng_popS l s.roots hr s.stack hs
        rw [stepS_heading_eq]
        refine ⟨hp.1, ?_, h.2⟩
        show rngF (SecS.mk (strTrim txt) l "" [] ::
          (popS l s.roots s.stack).2) = true
        rw [rngF, rngT]
        simp [hp.2, rngF, h.1.1, h.1.2]
      | content frag =>
        rw [levelsOKIn] at h
        cases hst : s.stack with
        | nil =>
          cases hrr : s.roots with
          | nil =>
            have hse : stepS s (.content frag) =
                ⟨[], [SecS.mk "Intro" 1 frag []]⟩ := by
              simp [stepS, hst, hrr]
            rw [hse]
            refine ⟨rfl, ?_, h⟩
            show rngF [SecS.mk "Intro" 1 frag []] = true
            rw [rngF, rngT]
            decide
          | cons r rs =>
            have hse : stepS s (.content frag) =
                ⟨addContent r frag :: rs, []⟩ := by
              simp [stepS, hst, hrr]
            rw [hse]
            rw [hrr, rngF] at hr
            simp only [Bool.and_eq_true] at hr
            refine ⟨?_, rfl, h⟩
            show rngF (addContent r frag :: rs) = true
            rw [rngF, rngT_addContent]
            simp [hr.1, hr.2]
        | cons t st =>
          have hse : stepS s (.content frag) =
              ⟨s.roots, addContent t frag :: st⟩ := by
            simp [stepS, hst]
          rw [hse]
          rw [hst, rngF] at hs
          simp only [Bool.and_eq_true] at hs
          refine ⟨hr, ?_, h⟩
          show rngF (addContent t frag :: st) = true
          rw [rngF, rngT_addContent]
          simp [hs.1, hs.2]
    have := ih (stepS s n) hstep.2.2 hstep.1 hstep.2.1
    simpa [runS, List.foldl_cons] using this

/-- C8: every tree returned by the builder on input whose headings carry
levels 1..6 has all section levels within 1..6 and each child strictly
deeper than its parent (no gap constraint). -/
theorem claim_C8 (ns : List MNode) (h : levelsOKIn ns = true) :
    gtF (buildTreeS ns) = true ∧ rngF (buildTreeS ns) = true := by
  constructor
  · exact okF_gtF _ (buildTreeS_SOK ns).1
  · have hr := rng_run ns ⟨[], []⟩ h rfl rfl
    exact rng_closeAll _ hr.1 _ hr.2

/-- Closed instance of C8 on the concrete example of the spec, with a
level-4 child directly under a level-1 parent. -/
theorem claim_C8_witness :
    levelsOKIn [MNode.heading 1 "A", MNode.heading 4 "D", MNode.content "<p>x</p>",
      MNode.heading 2 "B"] = true ∧
    (gtF (buildTreeS [MNode.heading 1 "A", MNode.heading 4 "D",
        MNode.content "<p>x</p>", MNode.heading 2 "B"]) = true ∧
      rngF (buildTreeS [MNode.heading 1 "A", MNode.heading 4 "D",
        MNode.content "<p>x</p>", MNode.heading 2 "B"]) = true) :=
  ⟨by decide, claim_C8 _ (by decide)⟩

theorem runS_append (a b : List MNode) (s : BStateS) :
    runS s (a ++ b) = runS (runS s a) b := by
  simp [runS, List.foldl_append]

theorem runS_cons (n : MNode) (ns : List MNode) (s : BStateS) :
    runS s (n :: ns) = runS (stepS s n) ns := by
  simp [runS, List.foldl_cons]

/-- C4: a document whose first top-level elements are non-heading
content gets exactly one synthesized root, titled `Intro` at level 1,
holding the concatenation of every pre-heading fragment; the total
section count is the heading count plus one exactly when the document
starts with content (so no second node is ever synthesized); and
`<p>hello</p>` alone yields the single `Intro` tree of the spec. -/
theorem claim_C4 (ns : List MNode) :
    sizeF (buildTreeS ns) = countH ns + introCount ns ∧
    (∀ pre rest, ns = pre ++ rest → pre ≠ [] →
      (∀ n ∈ pre, isHeadingN n = false) → headsOrNil rest = true →
      ∃ cs rs₀, buildTreeS ns = SecS.mk "Intro" 1 (joinFrags pre) cs :: rs₀) ∧
    buildTreeS [MNode.content "<p>hello</p>"] =
      [SecS.mk "Intro" 1 "<p>hello</p>" []] := by
  refine ⟨buildTreeS_size ns, ?_, by decide⟩
  intro pre rest heq hne hcont hrest
  subst heq
  cases pre with
  | nil => exact absurd rfl hne
  | cons c0 pre' =>
    cases c0 with
    | heading l txt =>
      have := hcont (MNode.heading l txt) (by simp)
      simp [isHeadingN] at this
    | content f0 =>
      have hstep0 : stepS ⟨[], []⟩ (.content f0) =
          ⟨[], [SecS.mk "Intro" 1 f0 []]⟩ := by
        simp [stepS]
      have hpre : runS ⟨[], []⟩ (MNode.content f0 :: pre') =
          ⟨[], [SecS.mk "Intro" 1 (joinFrags (MNode.content f0 :: pre')) []]⟩ := by
        rw [runS_cons, hstep0,
          run_content_prefix pre' (fun n hn => hcont n (by simp [hn])) f0]
        rfl
      set ib := SecS.mk "Intro" 1 (joinFrags (MNode.content f0 :: pre')) [] with hib
      have hib_t : ib.title = "Intro" := rfl
      have hib_l : ib.level = 1 := rfl
      have hib_c : ib.contentHtml = joinFrags (MNode.content f0 :: pre') := rfl
      cases rest with
      | nil =>
        refine ⟨[], [], ?_⟩
        simp only [buildTreeS, List.append_nil, hpre]
        rw [closeAll_one]
        rfl
      | cons r rest' =>
        cases r with
        | content f => simp [headsOrNil] at hrest
        | heading l txt =>
          have hrun : runS ⟨[], []⟩ ((MNode.content f0 :: pre') ++
              (MNode.heading l txt :: rest')) =
              runS (stepS ⟨[], []⟩ (.content f0))
                (pre' ++ (MNode.heading l txt :: rest')) := by
            rw [← runS_cons]
            rfl
          have hsplit : runS ⟨[], []⟩ ((MNode.content f0 :: pre') ++
              (MNode.heading l txt :: rest')) =
              runS (runS ⟨[], []⟩ (MNode.content f0 :: pre'))
                (MNode.heading l txt :: rest') := by
            rw [← runS_append]
          set s1 := stepS ⟨[], [ib]⟩ (.heading l txt) with hs1
          have hw1 : Wfirst ib s1 := by
            rw [hs1, stepS_heading_eq]
            by_cases hl : l ≤ 1
            · have hpop : popS l ([] : List SecS) [ib] = ([ib], []) := by
                have : l ≤ ib.level := by rw [hib_l]; exact hl
                rw [popS_last l [] ib this]
                rfl
              refine Or.inr ⟨ib, [], ?_, sameTLC_refl ib⟩
              show (popS l ([] : List SecS) [ib]).1 = [ib]
              rw [hpop]
            · have hpop : popS l ([] : List SecS) [ib] = ([], [ib]) := by
                have : ib.level < l := by rw [hib_l]; omega
                exact popS_stop l [] ib [] this
              refine Or.inl ⟨?_, [SecS.mk (strTrim txt) l "" []], ib, ?_,
                by simp, sameTLC_refl ib⟩
              · show (popS l ([] : List SecS) [ib]).1 = []
                rw [hpop]
              · show SecS.mk (strTrim txt) l "" [] ::
                  (popS l ([] : List SecS) [ib]).2 =
                  [SecS.mk (strTrim txt) l "" []] ++ [ib]
                rw [hpop]
                rfl
          have he1 : emptyInv s1 := by
            rw [hs1, stepS_heading_eq]
            intro h
            simp at h
          have hwfin := Wfirst_run ib rest' s1 hw1 he1
          obtain ⟨cs, rs₀, hfin⟩ := Wfirst_final ib _ hwfin
          refine ⟨cs, rs₀, ?_⟩
          rw [hib_t, hib_l, hib_c] at hfin
          simp only [buildTreeS]
          rw [hsplit, hpre, runS_cons]
          exact hfin

/-- Closed instance of C4: two content fragments then a heading — the
fragments both land in the single synthesized `Intro` root. -/
theorem claim_C4_witness :
    ∃ cs rs₀,
      buildTreeS [MNode.content "<p>a</p>", MNode.content "<p>b</p>",
        MNode.heading 1 "T"] =
      SecS.mk "Intro" 1
        (joinFrags [MNode.content "<p>a</p>", MNode.content "<p>b</p>"])
        cs :: rs₀ :=
  (claim_C4 _).2.1 [MNode.content "<p>a</p>", MNode.content "<p>b</p>"]
    [MNode.heading 1 "T"] rfl (by decide) (by decide) (by decide)

/-! The Markup Sanitizer `cleanHtml`: eight global regex rewrites,
embedded as character scanners with the semantics of JavaScript
`String.replace` with the `g` flag: scan left to right, at each
position try the pattern (each pattern here is deterministic: greedy
runs are maximal and the following literal cannot occur inside the run,
lazy runs stop at the first viable position); on a match emit nothing
and resume after it, otherwise emit the character and move on. -/

/-- The character class `[a-zA-Z0-9\-]`. -/
def isNameCh (c : Char) : Bool :=
  (decide ('a' ≤ c) && decide (c ≤ 'z')) || (decide ('A' ≤ c) && decide (c ≤ 'Z')) ||
  (decide ('0' ≤ c) && decide (c ≤ '9')) || c == '-'

/-- ASCII lower-casing, for the `i` regex flag. -/
def lcChar (c : Char) : Char :=
  if decide ('A' ≤ c) && decide (c ≤ 'Z') then Char.ofNat (c.toNat + 32) else c

/-- Match the lower-case literal `a` case-insensitively at the head. -/
def ciPre : List Char → List Char → Option (List Char)
| [], l => some l
| _ :: _, [] => none
| a :: as, c :: cs => if lcChar c == a then ciPre as cs else none

def expectCh (a : Char) : List Char → Option (List Char)
| c :: cs => if c == a then some cs else none
| [] => none

def dropName : List Char → List Char
| c :: cs => if isNameCh c then dropName cs else c :: cs
| [] => []

/-- One or more name characters, greedy. -/
def spanName : List Char → Option (List Char)
| c :: cs => if isNameCh c then some (dropName cs) else none
| [] => none

/-- Consume through the next `"` (the pattern `[^"]*"`). -/
def untilQuote : List Char → Option (List Char)
| [] => none
| c :: cs => if c == '"' then some cs else untilQuote cs

/-- The pattern tail `="[^"]*"`. -/
def attrTail (l : List Char) : Option (List Char) :=
  (expectCh '=' l).bind fun l1 => (expectCh '"' l1).bind untilQuote

/-- `/w:[a-zA-Z0-9\-]+="[^"]*"/i` — vendor-namespaced attributes. -/
def mWAttr (l : List Char) : Option (List Char) :=
  (ciPre ['w', ':'] l).bind fun l1 => (spanName l1).bind attrTail

/-- `/@[a-zA-Z0-9\-]+="[^"]*"/i`. -/
def mAtAttr (l : List Char) : Option (List Char) :=
  (expectCh '@' l).bind fun l1 => (spanName l1).bind attrTail

/-- `/_[a-zA-Z0-9\-]+="[^"]*"/i`. -/
def mUnderAttr (l : List Char) : Option (List Char) :=
  (expectCh '_' l).bind fun l1 => (spanName l1).bind attrTail

/-- The class `[^:;"]`. -/
def notCSQ (c : Char) : Bool := !(c == ':' || c == ';' || c == '"')

/-- The class `[^;"]`. -/
def notSQ (c : Char) : Bool := !(c == ';' || c == '"')

def dropP (p : Char → Bool) : List Char → List Char
| c :: cs => if p c then dropP p cs else c :: cs
| [] => []

/-- One or more characters of class `p`, greedy. -/
def spanP (p : Char → Bool) : List Char → Option (List Char)
| c :: cs => if p c then some (dropP p cs) else none
| [] => none

/-- `/mso-[^:;"]+:[^;"]+;?/i` — vendor style declarations. -/
def mMso (l : List Char) : Option (List Char) :=
  (ciPre ['m', 's', 'o', '-'] l).bind fun l1 =>
  (spanP notCSQ l1).bind fun l2 =>
  (expectCh ':' l2).bind fun l3 =>
  (spanP notSQ l3).map fun l4 =>
    match l4 with
    | ';' :: rest => rest
    | _ => l4

/-- Scan for the first `-->` and consume through it (lazy `[\s\S]*?-->`). -/
def findClose : List Char → Option (List Char)
| '-' :: '-' :: '>' :: rest => some rest
| _ :: rest => findClose rest
| [] => none

/-- `/<!--[\s\S]*?-->/` — comment spans. -/
def mComment (l : List Char) : Option (List Char) :=
  (ciPre ['<', '!', '-', '-'] l).bind findClose

/-- `/width="[^"]*"/i`. -/
def mWidth (l : List Char) : Option (List Char) :=
  (ciPre ['w', 'i', 'd', 't', 'h', '=', '"'] l).bind untilQuote

/-- Scan to the first `@` without crossing a `"` (lazy `[^"]*?@`). -/
def findAtInQuote : List Char → Option (List Char)
| [] => none
| c :: cs =>
  if c == '"' then none
  else if c == '@' then some cs
  else findAtInQuote cs

/-- `/style="[^"]*?@[^"]*?"/i`. -/
def mStyleAt (l : List Char) : Option (List Char) :=
  (ciPre ['s', 't', 'y', 'l', 'e', '=', '"'] l).bind fun l1 =>
  (findAtInQuote l1).bind untilQuote

/-- Scan to just after the first case-insensitive `mso-` without
crossing a `"` (lazy `[^"]*?mso-`). -/
def findMsoInQuote : List Char → Option (List Char)
| [] => none
| c :: cs =>
  if c == '"' then none
  else
    match ciPre ['m', 's', 'o', '-'] (c :: cs) with
    | some rest => some rest
    | none => findMsoInQuote cs

/-- `/style="[^"]*?mso-[^"]*?"/i`. -/
def mStyleMso (l : List Char) : Option (List Char) :=
  (ciPre ['s', 't', 'y', 'l', 'e', '=', '"'] l).bind fun l1 =>
  (findMsoInQuote l1).bind untilQuote

/-- Fuel-driven worker for `replaceAll`; the fuel bounds the remaining
input length, so the fuel-exhausted and too-long-match branches are
never taken for real matchers (every match consumes at least one
character). -/
def replGo (m : List Char → Option (List Char)) : Nat → List Char → List Char
| 0, l => l
| _ + 1, [] => []
| fuel + 1, c :: cs =>
  match m (c :: cs) with
  | some rest =>
    if rest.length ≤ fuel then replGo m fuel rest else c :: replGo m fuel cs
  | none => c :: replGo m fuel cs

/-- Global regex replacement by the empty string. -/
def replaceAll (m : List Char → Option (List Char)) (l : List Char) : List Char :=
  replGo m l.length l

/-- The eight rewrites of `cleanHtml`, in source order. -/
def cleanChars (l : List Char) : List Char :=
  replaceAll mStyleMso (replaceAll mStyleAt (replaceAll mWidth (replaceAll mComment
    (replaceAll mUnderAttr (replaceAll mAtAttr (replaceAll mMso
      (replaceAll mWAttr l)))))))

/-- The Markup Sanitizer `cleanHtml`. -/
def cleanHtml (s : String) : String :=
  (cleanChars s.toList).asString

/-- Some position of the list matches `m`. -/
def hasMatch (m : List Char → Option (List Char)) : List Char → Bool
| [] => false
| c :: cs => (m (c :: cs)).isSome || hasMatch m cs

/-- The string contains an `@`-prefixed attribute `@name="…"`. -/
def hasAtAttr (s : String) : Bool := hasMatch mAtAttr s.toList

/-- The string contains a vendor-namespace attribute `w:name="…"`. -/
def hasWAttr (s : String) : Bool := hasMatch mWAttr s.toList

/-- The string contains a comment span `<!-- … -->`. -/
def hasComment (s : String) : Bool := hasMatch mComment s.toList

/-- C5 counterexample: removing the attribute `@a="b"` from
`@x=@a="b""y"` concatenates the remaining text into the fresh attribute
`@x="y"`, so the output of `cleanHtml` still contains an `@`-prefixed
attribute; the claimed postcondition of the sanitizer fails. -/
theorem claim_C5_counterexample :
    cleanHtml "@x=@a=\"b\"\"y\"" = "@x=\"y\"" ∧
    hasAtAttr (cleanHtml "@x=@a=\"b\"\"y\"") = true := by
  constructor
  · rfl
  · decide

/-- No character of the list is a `"`, no position starts a
case-insensitive `mso-`, and no position starts `<!--`: the input never
triggers any of the eight rewrites. -/
def noTrigger : List Char → Bool
| [] => true
| c :: cs => !(c == '"') && (ciPre ['m', 's', 'o', '-'] (c :: cs)).isNone &&
    (ciPre ['<', '!', '-', '-'] (c :: cs)).isNone && noTrigger cs

theorem ciPre_suffix : ∀ (a l r : List Char), ciPre a l = some r → r <:+ l := by
  intro a
  induction a with
  | nil =>
    intro l r h
    rw [ciPre] at h
    cases h
    exact List.suffix_rfl
  | cons x xs ih =>
    intro l r h
    cases l with
    | nil => rw [ciPre] at h; cases h
    | cons c cs =>
      rw [ciPre] at h
      by_cases hc : lcChar c == x
      · rw [if_pos hc] at h
        exact (ih cs r h).trans (List.suffix_cons c cs)
      · rw [if_neg hc] at h
        cases h

theorem dropName_suffix : ∀ l : List Char, dropName l <:+ l := by
  intro l
  induction l with
  | nil => exact List.suffix_rfl
  | cons c cs ih =>
    rw [dropName]
    by_cases hc : isNameCh c
    · rw [if_pos hc]
      exact ih.trans (List.suffix_cons c cs)
    · rw [if_neg hc]

theorem spanName_suffix (l r : List Char) (h : spanName l = some r) : r <:+ l := by
  cases l with
  | nil => rw [spanName] at h; cases h
  | cons c cs =>
    rw [spanName] at h
    by_cases hc : isNameCh c
    · rw [if_pos hc] at h
      cases h
      exact (dropName_suffix cs).trans (List.suffix_cons c cs)
    · rw [if_neg hc] at h
      cases h

theorem untilQuote_mem : ∀ l r : List Char, untilQuote l = some r → '"' ∈ l := by
  intro l
  induction l with
  | nil => intro r h; rw [untilQuote] at h; cases h
  | cons c cs ih =>
    intro r h
    rw [untilQuote] at h
    by_cases hc : c == '"'
    · simp at hc
      simp [hc]
    · rw [if_neg hc] at h
      exact List.mem_cons_of_mem c (ih r h)

theorem expectCh_shape (a : Char) (l r : List Char) (h : expectCh a l = some r) :
    l = a :: r := by
  cases l with
  | nil => rw [expectCh] at h; cases h
  | cons c cs =>
    rw [expectCh] at h
    by_cases hc : c == a
    · rw [if_pos hc] at h
      cases h
      simp at hc
      rw [hc]
    · rw [if_neg hc] at h
      cases h

theorem attrTail_mem (l r : List Char) (h : attrTail l = some r) : '"' ∈ l := by
  rw [attrTail] at h
  cases h1 : expectCh '=' l with
  | none => rw [h1] at h; cases h
  | some l1 =>
    rw [h1, Option.bind] at h
    cases h2 : expectCh '"' l1 with
    | none => rw [h2] at h; cases h
    | some l2 =>
      rw [expectCh_shape '=' l l1 h1, expectCh_shape '"' l1 l2 h2]
      simp

theorem mWAttr_quote (l r : List Char) (h : mWAttr l = some r) : '"' ∈ l := by
  rw [mWAttr] at h
  cases h1 : ciPre ['w', ':'] l with
  | none => rw [h1] at h; cases h
  | some l1 =>
    rw [h1, Option.bind] at h
    cases h2 : spanName l1 with
    | none => rw [h2] at h; cases h
    | some l2 =>
      rw [h2, Option.bind] at h
      have hq := attrTail_mem l2 r h
      exact (ciPre_suffix _ l l1 h1).subset ((spanName_suffix l1 l2 h2).subset hq)

theorem mAtAttr_quote (l r : List Char) (h : mAtAttr l = some r) : '"' ∈ l := by
  rw [mAtAttr] at h
  cases h1 : expectCh '@' l with
  | none => rw [h1] at h; cases h
  | some l1 =>
    rw [h1, Option.bind] at h
    cases h2 : spanName l1 with
    | none => rw [h2] at h; cases h
    | some l2 =>
      rw [h2, Option.bind] at h
      have hq := attrTail_mem l2 r h
      rw [expectCh_shape '@' l l1 h1]
      exact List.mem_cons_of_mem _ ((spanName_suffix l1 l2 h2).subset hq)

theorem mUnderAttr_quote (l r : List Char) (h : mUnderAttr l = some r) : '"' ∈ l := by
  rw [mUnderAttr] at h
  cases h1 : expectCh '_' l with
  | none => rw [h1] at h; cases h
  | some l1 =>
    rw [h1, Option.bind] at h
    cases h2 : spanName l1 with
    | none => rw [h2] at h; cases h
    | some l2 =>
      rw [h2, Option.bind] at h
      have hq := attrTail_mem l2 r h
      rw [expectCh_shape '_' l l1 h1]
      exact List.mem_cons_of_mem _ ((spanName_suffix l1 l2 h2).subset hq)

theorem mWidth_quote (l r : List Char) (h : mWidth l = some r) : '"' ∈ l := by
  rw [mWidth] at h
  cases h1 : ciPre ['w', 'i', 'd', 't', 'h', '=', '"'] l with
  | none => rw [h1] at h; cases h
  | some l1 =>
    rw [h1, Option.bind] at h
    exact (ciPre_suffix _ l l1 h1).subset (untilQuote_mem l1 r h)

theorem findAtInQuote_suffix : ∀ l r : List Char,
    findAtInQuote l = some r → r <:+ l := by
  intro l
  induction l with
  | nil => intro r h; rw [findAtInQuote] at h; cases h
  | cons c cs ih =>
    intro r h
    rw [findAtInQuote] at h
    by_cases hq : c == '"'
    · rw [if_pos hq] at h; cases h
    · rw [if_neg hq] at h
      by_cases ha : c == '@'
      · rw [if_pos ha] at h
        cases h
        exact List.suffix_cons c cs
      · rw [if_neg ha] at h
        exact (ih r h).trans (List.suffix_cons c cs)

theorem findMsoInQuote_suffix : ∀ l r : List Char,
    findMsoInQuote l = some r → r <:+ l := by
  intro l
  induction l with
  | nil => intro r h; rw [findMsoInQuote] at h; cases h
  | cons c cs ih =>
    intro r h
    rw [findMsoInQuote] at h
    by_cases hq : c == '"'
    · rw [if_pos hq] at h; cases h
    · rw [if_neg hq] at h
      cases hm : ciPre ['m', 's', 'o', '-'] (c :: cs) with
      | some rest =>
        rw [hm] at h
        cases h
        exact ciPre_suffix _ _ _ hm
      | none =>
        rw [hm] at h
        exact (ih r h).trans (List.suffix_cons c cs)

theorem mStyleAt_quote (l r : List Char) (h : mStyleAt l = some r) : '"' ∈ l := by
  rw [mStyleAt] at h
  cases h1 : ciPre ['s', 't', 'y', 'l', 'e', '=', '"'] l with
  | none => rw [h1] at h; cases h
  | some l1 =>
    rw [h1, Option.bind] at h
    cases h2 : findAtInQuote l1 with
    | none => rw [h2] at h; cases h
    | some l2 =>
      rw [h2, Option.bind] at h
      exact (ciPre_suffix _ l l1 h1).subset
        ((findAtInQuote_suffix l1 l2 h2).subset (untilQuote_mem l2 r h))

theorem mStyleMso_quote (l r : List Char) (h : mStyleMso l = some r) : '"' ∈ l := by
  rw [mStyleMso] at h
  cases h1 : ciPre ['s', 't', 'y', 'l', 'e', '=', '"'] l with
  | none => rw [h1] at h; cases h
  | some l1 =>
    rw [h1, Option.bind] at h
    cases h2 : findMsoInQuote l1 with
    | none => rw [h2] at h; cases h
    | some l2 =>
      rw [h2, Option.bind] at h
      exact (ciPre_suffix _ l l1 h1).subset
        ((findMsoInQuote_suffix l1 l2 h2).subset (untilQuote_mem l2 r h))

theorem noTrigger_tail (c : Char) (cs : List Char)
    (h : noTrigger (c :: cs) = true) : noTrigger cs = true := by
  rw [noTrigger] at h
  simp only [Bool.and_eq_true] at h
  exact h.2

theorem noTrigger_noQuote : ∀ l : List Char, noTrigger l = true → '"' ∉ l := by
  intro l
  induction l with
  | nil => intro _ h; simp at h
  | cons c cs ih =>
    intro h hm
    rw [noTrigger] at h
    simp only [Bool.and_eq_true] at h
    rcases List.mem_cons.mp hm with he | hm2
    · rw [← he] at h
      simp at h
    · exact ih h.2 hm2

theorem mWAttr_none (l : List Char) (h : noTrigger l = true) : mWAttr l = none := by
  cases hm : mWAttr l with
  | none => rfl
  | some r => exact absurd (mWAttr_quote l r hm) (noTrigger_noQuote l h)

theorem mAtAttr_none (l : List Char) (h : noTrigger l = true) : mAtAttr l = none := by
  cases hm : mAtAttr l with
  | none => rfl
  | some r => exact absurd (mAtAttr_quote l r hm) (noTrigger_noQuote l h)

theorem mUnderAttr_none (l : List Char) (h : noTrigger l = true) :
    mUnderAttr l = none := by
  cases hm : mUnderAttr l with
  | none => rfl
  | some r => exact absurd (mUnderAttr_quote l r hm) (noTrigger_noQuote l h)

theorem mWidth_none (l : List Char) (h : noTrigger l = true) : mWidth l = none := by
  cases hm : mWidth l with
  | none => rfl
  | some r => exact absurd (mWidth_quote l r hm) (noTrigger_noQuote l h)

theorem mStyleAt_none (l : List Char) (h : noTrigger l = true) :
    mStyleAt l = none := by
  cases hm : mStyleAt l with
  | none => rfl
  | some r => exact absurd (mStyleAt_quote l r hm) (noTrigger_noQuote l h)

theorem mStyleMso_none (l : List Char) (h : noTrigger l = true) :
    mStyleMso l = none := by
  cases hm : mStyleMso l with
  | none => rfl
  | some r => exact absurd (mStyleMso_quote l r hm) (noTrigger_noQuote l h)

theorem mMso_none (l : List Char) (h : noTrigger l = true) : mMso l = none := by
  cases l with
  | nil => rfl
  | cons c cs =>
    rw [noTrigger] at h
    simp only [Bool.and_eq_true] at h
    have : ciPre ['m', 's', 'o', '-'] (c :: cs) = none :=
      Option.isNone_iff_eq_none.mp h.1.1.2
    rw [mMso, this]
    rfl

theorem mComment_none (l : List Char) (h : noTrigger l = true) :
    mComment l = none := by
  cases l with
  | nil => rfl
  | cons c cs =>
    rw [noTrigger] at h
    simp only [Bool.and_eq_true] at h
    have : ciPre ['<', '!', '-', '-'] (c :: cs) = none :=
      Option.isNone_iff_eq_none.mp h.1.2
    rw [mComment, this]
    rfl

theorem replGo_noTrigger (m : List Char → Option (List Char))
    (hm : ∀ l', noTrigger l' = true → m l' = none) :
    ∀ fuel l, noTrigger l = true → replGo m fuel l = l := by
  intro fuel
  induction fuel with
  | zero => intro l _; rfl
  | succ n ih =>
    intro l hl
    cases l with
    | nil => rfl
    | cons c cs =>
      have h1 := hm _ hl
      simp only [replGo, h1]
      rw [ih cs (noTrigger_tail c cs hl)]

theorem replaceAll_noTrigger (m : List Char → Option (List Char))
    (hm : ∀ l', noTrigger l' = true → m l' = none)
    (l : List Char) (h : noTrigger l = true) : replaceAll m l = l :=
  replGo_noTrigger m hm l.length l h

theorem hasMatch_false (m : List Char → Option (List Char))
    (hm : ∀ l', noTrigger l' = true → m l' = none) :
    ∀ l, noTrigger l = true → hasMatch m l = false := by
  intro l
  induction l with
  | nil => intro _; rfl
  | cons c cs ih =>
    intro h
    rw [hasMatch, hm _ h, ih (noTrigger_tail c cs h)]
    rfl

theorem asString_toList (s : String) : s.toList.asString = s := rfl

/-- C5 (amended): `cleanHtml` is a total function of the input string —
it never throws, by construction of the embedding — but its advertised
postcondition is not universal (see the counterexample: removals can
concatenate surrounding text into new forbidden spans).  On any input
free of the rewrite triggers (no quote character, no case-insensitive
`mso-`, no `<!--`) the sanitizer returns its input unchanged and the
output contains no `@`-prefixed attribute, no vendor-namespace `w:`
attribute and no comment span. -/
theorem claim_C5 (s : String) (h : noTrigger s.toList = true) :
    cleanHtml s = s ∧ hasAtAttr (cleanHtml s) = false ∧
    hasWAttr (cleanHtml s) = false ∧ hasComment (cleanHtml s) = false := by
  have hid : cleanChars s.toList = s.toList := by
    unfold cleanChars
    rw [replaceAll_noTrigger mWAttr mWAttr_none _ h,
        replaceAll_noTrigger mMso mMso_none _ h,
        replaceAll_noTrigger mAtAttr mAtAttr_none _ h,
        replaceAll_noTrigger mUnderAttr mUnderAttr_none _ h,
        replaceAll_noTrigger mComment mComment_none _ h,
        replaceAll_noTrigger mWidth mWidth_none _ h,
        replaceAll_noTrigger mStyleAt mStyleAt_none _ h,
        replaceAll_noTrigger mStyleMso mStyleMso_none _ h]
  have hcl : cleanHtml s = s := by
    rw [cleanHtml, hid, asString_toList]
  refine ⟨hcl, ?_, ?_, ?_⟩
  · rw [hcl, hasAtAttr]
    exact hasMatch_false mAtAttr mAtAttr_none _ h
  · rw [hcl, hasWAttr]
    exact hasMatch_false mWAttr mWAttr_none _ h
  · rw [hcl, hasComment]
    exact hasMatch_false mComment mComment_none _ h

/-- Closed instance of the amended C5 on a plain markup fragment. -/
theorem claim_C5_witness :
    noTrigger "<p>t</p>".toList = true ∧
    (cleanHtml "<p>t</p>" = "<p>t</p>" ∧
     hasAtAttr (cleanHtml "<p>t</p>") = false ∧
     hasWAttr (cleanHtml "<p>t</p>") = false ∧
     hasComment (cleanHtml "<p>t</p>") = false) :=
  ⟨by decide, claim_C5 "<p>t</p>" (by decide)⟩

/-- C3: on the input `<h1>A</h1><p>x</p><h2>B</h2><p>y</p><h1>C</h1>`
(whose top-level elements are the heading `A` at level 1, the content
fragment `<p>x</p>`, the heading `B` at level 2, the content fragment
`<p>y</p>`, and the heading `C` at level 1) the Tree Builder returns a
two-root forest: a first root titled `A` at level 1 with contentHtml
`<p>x</p>` whose single child is titled `B` at level 2 with contentHtml
`<p>y</p>` and no children, and a second root titled `C` at level 1 with
empty contentHtml and no children — whatever the random id source is. -/
theorem claim_C3 (rand : Nat → String) :
    stripFor (buildTree rand
      [MNode.heading 1 "A", MNode.content "<p>x</p>", MNode.heading 2 "B",
       MNode.content "<p>y</p>", MNode.heading 1 "C"]) =
    [SecS.mk "A" 1 "<p>x</p>" [SecS.mk "B" 2 "<p>y</p>" []],
     SecS.mk "C" 1 "" []] := by
  rw [strip_buildTree]
  decide

/-- C10: the Tree Builder is deterministic modulo identifiers — two runs
with different random sources agree on every field except `id` — and
every generated id starts with the `n_` prefix of `cryptoId`.  The other
markup rewriters are plain functions of their input in this development,
so their determinism is definitional. -/
theorem claim_C10 (r1 r2 : Nat → String) (ns : List MNode) :
    stripFor (buildTree r1 ns) = stripFor (buildTree r2 ns) ∧
    allIdsF (buildTree r1 ns) = true := by
  refine ⟨?_, allIds_buildTree r1 ns⟩
  rw [strip_buildTree, strip_buildTree]

/-! The Table Attribute Stripper `sanitizeTable` parses the fragment
with the external DOM library, removes every attribute from every
element matching `table, tr, td, th, thead, tbody, tfoot`, and returns
the serialized body markup.  The DOM is modelled by `HNode` (element
with lower-cased tag, attribute list and children, or text). -/

inductive HNode where
| el (tag : String) (attrs : List (String × String)) (children : List HNode)
| txt (s : String)

/-- The selector `table, tr, td, th, thead, tbody, tfoot`. -/
def tableish (t : String) : Bool :=
  t == "table" || t == "tr" || t == "td" || t == "th" ||
  t == "thead" || t == "tbody" || t == "tfoot"

mutual

/-- Remove every attribute of every table-related element (the
`while (el.attributes.length > 0) removeAttribute` loop, whose end state
is an empty attribute list). -/
def stripT : HNode → HNode
| .el t a ch => .el t (if tableish t then [] else a) (stripTF ch)
| .txt s => .txt s

def stripTF : List HNode → List HNode
| [] => []
| n :: ns => stripT n :: stripTF ns

end

mutual

/-- Every table-related element carries zero attributes. -/
def attrFreeT : HNode → Bool
| .el t a ch => (!(tableish t) || a.isEmpty) && attrFreeF ch
| .txt _ => true

def attrFreeF : List HNode → Bool
| [] => true
| n :: ns => attrFreeT n && attrFreeF ns

end

mutual

/-- Erase every attribute (used to compare element structure and
content while ignoring attributes). -/
def shapeT : HNode → HNode
| .el t _ ch => .el t [] (shapeF ch)
| .txt s => .txt s

def shapeF : List HNode → List HNode
| [] => []
| n :: ns => shapeT n :: shapeF ns

end

mutual

theorem stripT_attrFree (n : HNode) : attrFreeT (stripT n) = true := by
  cases n with
  | txt s => rfl
  | el t a ch =>
    rw [stripT, attrFreeT]
    simp only [Bool.and_eq_true]
    refine ⟨?_, stripTF_attrFree ch⟩
    by_cases ht : tableish t
    · simp [ht, List.isEmpty]
    · simp [ht]

theorem stripTF_attrFree (f : List HNode) : attrFreeF (stripTF f) = true := by
  cases f with
  | nil => rfl
  | cons n ns =>
    rw [stripTF, attrFreeF]
    simp only [Bool.and_eq_true]
    exact ⟨stripT_attrFree n, stripTF_attrFree ns⟩

end

mutual

theorem stripT_shape (n : HNode) : shapeT (stripT n) = shapeT n := by
  cases n with
  | txt s => rfl
  | el t a ch =>
    rw [stripT, shapeT, shapeT, stripTF_shape ch]

theorem stripTF_shape (f : List HNode) : shapeF (stripTF f) = shapeF f := by
  cases f with
  | nil => rfl
  | cons n ns =>
    rw [stripTF, shapeF, shapeF, stripT_shape n, stripTF_shape ns]

end

/-- C6: after the Table Attribute Stripper, every `table`, `tr`, `td`,
`th`, `thead`, `tbody`, `tfoot` element of the fragment carries zero
attributes, and the element structure and content are otherwise
untouched (erasing all attributes of input and output gives the same
forest).  The string-to-DOM parse is performed by the external DOM
library and is modelled by quantifying over every parsed forest. -/
theorem claim_C6 (f : List HNode) :
    attrFreeF (stripTF f) = true ∧ shapeF (stripTF f) = shapeF f :=
  ⟨stripTF_attrFree f, stripTF_shape f⟩

/-! The Tree Serializer of the export route (`buildHtml`): a depth-first
pre-order walk appending to the accumulator `finalHtml`.  The
`sanitizeTable` step is abstracted by a parameter `tstrip` (its string
level form needs the external DOM parse); the `cleanHtml` step is the
concrete sanitizer above. -/

mutual

/-- One node of the `buildHtml` walk: emit `<h{n.level}>{n.title}</h…>`,
then the sanitized content when non-empty, then the children at
`level + 1` (the `level` parameter is passed but never read). -/
def bhT (tstrip : String → String) (acc : String) (n : SecS) (lvl : Nat) : String :=
  match n with
  | .mk ti l c ch =>
    let a1 := acc ++ "<h" ++ toString l ++ ">" ++ ti ++ "</h" ++ toString l ++ ">"
    let a2 := if c ≠ "" then a1 ++ tstrip (cleanHtml c) else a1
    if ch ≠ [] then bhF tstrip a2 ch (lvl + 1) else a2

def bhF (tstrip : String → String) (acc : String) (l : List SecS) (lvl : Nat) : String :=
  match l with
  | [] => acc
  | n :: rest => bhF tstrip (bhT tstrip acc n lvl) rest lvl

end

/-- `buildHtml(nodes)` of the export route. -/
def buildHtml (tstrip : String → String) (l : List SecS) : String :=
  bhF tstrip "" l 1

mutual

/-- The markup emitted for one section in isolation. -/
def emitT (tstrip : String → String) : SecS → String
| .mk ti l c ch =>
  "<h" ++ toString l ++ ">" ++ ti ++ "</h" ++ toString l ++ ">" ++
  (if c ≠ "" then tstrip (cleanHtml c) else "") ++ emitF tstrip ch

/-- The markup emitted for a forest: pre-order concatenation. -/
def emitF (tstrip : String → String) : List SecS → String
| [] => ""
| n :: rest => emitT tstrip n ++ emitF tstrip rest

end

mutual

theorem bhT_emit (tstrip : String → String) (n : SecS) :
    ∀ acc lvl, bhT tstrip acc n lvl = acc ++ emitT tstrip n := by
  cases n with
  | mk ti l c ch =>
    intro acc lvl
    rw [bhT, emitT]
    by_cases hch : ch = []
    · subst hch
      by_cases hc : c = ""
      · simp [hc, emitF, String.append_assoc]
      · simp [hc, emitF, String.append_assoc]
    · rw [if_pos hch, bhF_emit tstrip ch]
      by_cases hc : c = ""
      · simp [hc, String.append_assoc]
      · simp [hc, String.append_assoc]

theorem bhF_emit (tstrip : String → String) (l : List SecS) :
    ∀ acc lvl, bhF tstrip acc l lvl = acc ++ emitF tstrip l := by
  cases l with
  | nil => intro acc lvl; rw [bhF, emitF]; simp
  | cons n rest =>
    intro acc lvl
    rw [bhF, emitF, bhF_emit tstrip rest, bhT_emit tstrip n, String.append_assoc]

end

/-- C7: `buildHtml` is a depth-first pre-order traversal — the result is
the accumulator followed by the pre-order concatenation of per-section
emissions, each emitting `<h(level)>title</h(level)>` from the section's
live `level` field, then its sanitized contentHtml, then its children —
and the result is independent of the depth parameter `level` (which the
source threads but never reads), so the emitted heading never reflects
the nesting depth. -/
theorem claim_C7 (tstrip : String → String) (l : List SecS) (acc : String)
    (lvl lvl' : Nat) :
    bhF tstrip acc l lvl = acc ++ emitF tstrip l ∧
    bhF tstrip acc l lvl = bhF tstrip acc l lvl' ∧
    buildHtml tstrip l = emitF tstrip l := by
  refine ⟨bhF_emit tstrip l acc lvl, ?_, ?_⟩
  · rw [bhF_emit tstrip l acc lvl, bhF_emit tstrip l acc lvl']
  · rw [buildHtml, bhF_emit tstrip l "" 1]
    simp

/-! Model of the external DOM library used by `buildTreeFromHtml` and
`sanitizeTable`: a tokenizer and stack parser for simple well-formed
fragments (lower-cased tag and attribute names, double-quoted attribute
values, void elements self-closing, mismatched closers ignored, open
elements auto-closed at end of input), and the `innerHTML`/`outerHTML`
serializer. -/

def isTagCh (c : Char) : Bool :=
  (decide ('a' ≤ c) && decide (c ≤ 'z')) ||
  (decide ('A' ≤ c) && decide (c ≤ 'Z')) ||
  (decide ('0' ≤ c) && decide (c ≤ '9'))

def attrNameCh (c : Char) : Bool :=
  !(c == '=' || c == ' ' || c == '>' || c == '/' || c == '"' ||
    c == '\t' || c == '\n' || c == '\r')

def wsSlash (c : Char) : Bool :=
  c == ' ' || c == '/' || c == '\t' || c == '\n' || c == '\r'

/-- Lex the attribute region of an open tag, through the closing `>`. -/
def lexAttrs : Nat → List Char → List (String × String) × List Char
| 0, l => ([], l)
| _ + 1, [] => ([], [])
| f + 1, c :: cs =>
  if c == '>' then ([], cs)
  else if wsSlash c then lexAttrs f cs
  else
    let name := (c :: cs).takeWhile attrNameCh
    let rest := (c :: cs).dropWhile attrNameCh
    if name.isEmpty then
      lexAttrs f (match rest with | _ :: r => r | [] => [])
    else
      match rest with
      | '=' :: '"' :: rest2 =>
        let v := rest2.takeWhile (fun x => !(x == '"'))
        let rest3 := rest2.dropWhile (fun x => !(x == '"'))
        let rest4 := match rest3 with
          | '"' :: r => r
          | r => r
        let res := lexAttrs f rest4
        (((name.map lcChar).asString, v.asString) :: res.1, res.2)
      | '=' :: rest2 =>
        let v := rest2.takeWhile (fun x => !(x == ' ' || x == '>'))
        let rest3 := rest2.dropWhile (fun x => !(x == ' ' || x == '>'))
        let res := lexAttrs f rest3
        (((name.map lcChar).asString, v.asString) :: res.1, res.2)
      | _ =>
        let res := lexAttrs f rest
        (((name.map lcChar).asString, "") :: res.1, res.2)

inductive Tok where
| tOpen (tag : String) (attrs : List (String × String))
| tClose (tag : String)
| tText (s : String)

def lexToks : Nat → List Char → List Tok
| 0, _ => []
| _ + 1, [] => []
| f + 1, '<' :: '/' :: rest =>
  let name := rest.takeWhile isTagCh
  let rest2 := rest.dropWhile isTagCh
  let rest3 := rest2.dropWhile (fun c => !(c == '>'))
  let rest4 := match rest3 with
    | '>' :: r => r
    | r => r
  Tok.tClose ((name.map lcChar).asString) :: lexToks f rest4
| _ + 1, ['<'] => [Tok.tText "<"]
| f + 1, '<' :: c :: rest =>
  if isTagCh c then
    let name := (c :: rest).takeWhile isTagCh
    let rest2 := (c :: rest).dropWhile isTagCh
    let ar := lexAttrs rest2.length rest2
    Tok.tOpen ((name.map lcChar).asString) ar.1 :: lexToks f ar.2
  else
    Tok.tText "<" :: lexToks f (c :: rest)
| f + 1, c :: rest =>
  let t := (c :: rest).takeWhile (fun x => !(x == '<'))
  let rest2 := (c :: rest).dropWhile (fun x => !(x == '<'))
  Tok.tText (t.asString) :: lexToks f rest2

/-- Void elements have no closing tag. -/
def voidTag (t : String) : Bool :=
  t == "br" || t == "img" || t == "hr" || t == "input" || t == "meta" ||
  t == "link" || t == "area" || t == "base" || t == "col" ||
  t == "embed" || t == "source" || t == "wbr"

/-- Stack parser over the token stream. -/
def buildGo : Nat → List Tok →
    List (String × List (String × String) × List HNode) → List HNode → List HNode
| 0, _, _, acc => acc.reverse
| _ + 1, [], [], acc => acc.reverse
| f + 1, [], (t, a, ch) :: stk, acc =>
  buildGo f [] stk (HNode.el t a acc.reverse :: ch)
| f + 1, Tok.tText s :: toks, stk, acc => buildGo f toks stk (HNode.txt s :: acc)
| f + 1, Tok.tOpen t a :: toks, stk, acc =>
  if voidTag t then buildGo f toks stk (HNode.el t a [] :: acc)
  else buildGo f toks ((t, a, acc) :: stk) []
| f + 1, Tok.tClose t :: toks, stk, acc =>
  match stk with
  | (t2, a2, ch) :: stk2 =>
    if t2 == t then buildGo f toks stk2 (HNode.el t2 a2 acc.reverse :: ch)
    else buildGo f toks ((t2, a2, ch) :: stk2) acc
  | [] => buildGo f toks [] acc

/-- Parse a fragment into the body's child nodes. -/
def parseH (s : String) : List HNode :=
  let toks := lexToks s.toList.length s.toList
  buildGo (2 * toks.length + 1) toks [] []

def attrsStr : List (String × String) → String
| [] => ""
| (n, v) :: rest => " " ++ n ++ "=\"" ++ v ++ "\"" ++ attrsStr rest

mutual

/-- `outerHTML` of one node. -/
def serT : HNode → String
| .el t a ch =>
  "<" ++ t ++ attrsStr a ++ ">" ++ serF ch ++
  (if voidTag t then "" else "</" ++ t ++ ">")
| .txt s => s

/-- `innerHTML` of a node list. -/
def serF : List HNode → String
| [] => ""
| n :: ns => serT n ++ serF ns

end

mutual

/-- `textContent` of one node. -/
def textT : HNode → String
| .el _ _ ch => textF ch
| .txt s => s

def textF : List HNode → String
| [] => ""
| n :: ns => textT n ++ textF ns

end

/-- The `^H([1-6])$` tag test of the builder, on lower-cased tags. -/
def hLev (t : String) : Option Nat :=
  if t == "h1" then some 1 else if t == "h2" then some 2
  else if t == "h3" then some 3 else if t == "h4" then some 4
  else if t == "h5" then some 5 else if t == "h6" then some 6
  else none

/-- One top-level element as seen by the builder's loop: headings carry
their level and `textContent`, everything else its `outerHTML`; stray
top-level text nodes are not element children and are skipped. -/
def topNode : HNode → Option MNode
| .txt _ => none
| .el t a ch =>
  match hLev t with
  | some lv => some (.heading lv (textF ch))
  | none => some (.content (serT (.el t a ch)))

/-- The element children of the parsed body, as builder input. -/
def parseNodes (s : String) : List MNode := (parseH s).filterMap topNode

/-- `sanitizeTable` on strings: parse, strip, re-serialize the body. -/
def sanitizeTableStr (s : String) : String := serF (stripTF (parseH s))

/-- The serializer of the export route with its concrete sanitizers. -/
def serializeStr (l : List SecS) : String := buildHtml sanitizeTableStr l

/-- One full round trip: build, serialize, re-parse, re-build. -/
def roundTrip (ns : List MNode) : List SecS :=
  buildTreeS (parseNodes (serializeStr (buildTreeS ns)))

/-- C2 counterexample: for `<h1>A</h1><p width="1">x</p>` the serializer
rewrites the section's contentHtml (the sanitizer deletes the `width`
attribute), so rebuilding from the serialized markup yields a tree whose
contentHtml differs from the original: the round trip is not an
isomorphism (titles, levels and nesting survive, contentHtml does not). -/
theorem claim_C2_counterexample :
    roundTrip [MNode.heading 1 "A", MNode.content "<p width=\"1\">x</p>"] ≠
      buildTreeS [MNode.heading 1 "A", MNode.content "<p width=\"1\">x</p>"] ∧
    roundTrip [MNode.heading 1 "A", MNode.content "<p width=\"1\">x</p>"] =
      [SecS.mk "A" 1 "<p>x</p>" []] ∧
    buildTreeS [MNode.heading 1 "A", MNode.content "<p width=\"1\">x</p>"] =
      [SecS.mk "A" 1 "<p width=\"1\">x</p>" []] := by
  refine ⟨?_, by decide, by decide⟩
  decide

/-! Amended round-trip machinery.  `flattenF F` is the top-level element
sequence that serializing `F` and re-parsing it produces when the
sanitize-and-reparse of every contentHtml fragment and of every title is
the identity (exactly what the counterexample shows can fail): one
heading node per section carrying its level and title, one content node
per non-empty contentHtml, children in pre-order. -/

mutual

def flattenT : SecS → List MNode
| .mk ti l c ch =>
  MNode.heading l ti :: ((if c = "" then [] else [MNode.content c]) ++ flattenF ch)

def flattenF : List SecS → List MNode
| [] => []
| t :: ts => flattenT t ++ flattenF ts

end

theorem sizeT_pos (t : SecS) : 1 ≤ sizeT t := by
  cases t with
  | mk ti l c ch => simp [sizeT]

mutual

/-- The open right spine of a tree after its flatten has been rebuilt:
top of stack first; each spine node carries the children to its left. -/
def rsT : SecS → List SecS
| .mk ti l c ch => rsGo ti l c [] ch

def rsGo (ti : String) (l : Nat) (c : String) (init : List SecS) :
    List SecS → List SecS
| [] => [SecS.mk ti l c init]
| [x] => rsT x ++ [SecS.mk ti l c init]
| x :: y :: rest => rsGo ti l c (init ++ [x]) (y :: rest)

end

theorem rsGo_nil (ti : String) (l : Nat) (c : String) (init : List SecS) :
    rsGo ti l c init [] = [SecS.mk ti l c init] := by
  simp [rsGo]

theorem rsGo_one (ti : String) (l : Nat) (c : String) (init : List SecS)
    (x : SecS) : rsGo ti l c init [x] = rsT x ++ [SecS.mk ti l c init] := by
  rw [rsGo]

theorem rsGo_two (ti : String) (l : Nat) (c : String) (init : List SecS)
    (x y : SecS) (rest : List SecS) :
    rsGo ti l c init (x :: y :: rest) = rsGo ti l c (init ++ [x]) (y :: rest) := by
  simp [rsGo]

theorem rsT_eq (ti : String) (l : Nat) (c : String) (ch : List SecS) :
    rsT (SecS.mk ti l c ch) = rsGo ti l c [] ch := by
  simp [rsT]

theorem allGT_mem (l : Nat) : ∀ cs : List SecS, allGT l cs = true →
    ∀ x ∈ cs, l < x.level := by
  intro cs
  induction cs with
  | nil => intro _ x hx; simp at hx
  | cons c cs ih =>
    intro h x hx
    rw [allGT] at h
    simp only [Bool.and_eq_true, decide_eq_true_eq] at h
    rcases List.mem_cons.mp hx with he | hm
    · rw [he]; exact h.1
    · exact ih h.2 x hm

theorem okF_mem : ∀ cs : List SecS, okF cs = true → ∀ x ∈ cs, okT x = true := by
  intro cs
  induction cs with
  | nil => intro _ x hx; simp at hx
  | cons c cs ih =>
    intro h x hx
    rw [okF] at h
    simp only [Bool.and_eq_true] at h
    rcases List.mem_cons.mp hx with he | hm
    · rw [he]; exact h.1
    · exact ih h.2 x hm

theorem okT_parts (ti : String) (l : Nat) (c : String) (ch : List SecS)
    (h : okT (SecS.mk ti l c ch) = true) :
    strTrim ti = ti ∧ allGT l ch = true ∧ sibNI ch = true ∧ okF ch = true := by
  rw [okT] at h
  simp only [Bool.and_eq_true, beq_iff_eq] at h
  exact ⟨h.1.1.1, h.1.1.2, h.1.2, h.2⟩

theorem sibNI_head (a b : SecS) (r : List SecS)
    (h : sibNI (a :: b :: r) = true) : b.level ≤ a.level ∧ sibNI (b :: r) = true := by
  rw [sibNI] at h
  simp only [Bool.and_eq_true, decide_eq_true_eq] at h
  exact h

/-- Popping through the rebuilt right spine re-assembles the tree and
then continues as if the tree itself were on top (worker, by induction on
a size bound). -/
theorem popThruAux (n : Nat) : ∀ (ti : String) (lv : Nat) (cc : String)
    (list init : List SecS), sizeF list ≤ n →
    (∀ x ∈ list, lv < x.level ∧ okT x = true) →
    ∀ l, l ≤ lv → ∀ roots rest : List SecS,
    popS l roots (rsGo ti lv cc init list ++ rest) =
    popS l roots (SecS.mk ti lv cc (init ++ list) :: rest) := by
  induction n with
  | zero =>
    intro ti lv cc list init hsz hall l hl roots rest
    cases list with
    | nil => rw [rsGo_nil]; simp
    | cons x xs =>
      exfalso
      have := sizeT_pos x
      simp [sizeF] at hsz
      omega
  | succ n ih =>
    intro ti lv cc list init hsz hall l hl roots rest
    cases list with
    | nil => rw [rsGo_nil]; simp
    | cons x xs =>
      cases xs with
      | nil =>
        rw [rsGo_one]
        have hx := hall x (by simp)
        cases x with
        | mk a b c d =>
          have hp := okT_parts a b c d hx.2
          have hszd : sizeF d ≤ n := by
            simp [sizeF, sizeT] at hsz
            omega
          have hlb : l ≤ b := by
            have := hx.1
            simp [SecS.level] at this
            omega
          have h1 := ih a b c d [] hszd
            (fun z hz => ⟨allGT_mem b d hp.2.1 z hz, okF_mem d hp.2.2.2 z hz⟩)
            l hlb roots (SecS.mk ti lv cc init :: rest)
          rw [rsT_eq]
          simp only [List.append_assoc, List.singleton_append]
          simp only [List.nil_append] at h1
          rw [h1, popS_more l roots (SecS.mk a b c d) (SecS.mk ti lv cc init) rest
            (by simpa [SecS.level] using hlb)]
          have hpc : pushChild (SecS.mk ti lv cc init) (SecS.mk a b c d) =
            SecS.mk ti lv cc (init ++ [SecS.mk a b c d]) := rfl
          rw [hpc]
      | cons y rest2 =>
        rw [rsGo_two]
        have hsz2 : sizeF (y :: rest2) ≤ n := by
          have := sizeT_pos x
          simp [sizeF] at hsz ⊢
          omega
        have := ih ti lv cc (y :: rest2) (init ++ [x]) hsz2
          (fun z hz => hall z (by simp at hz ⊢; tauto)) l hl roots rest
        rw [this]
        simp

/-- Popping through the rebuilt right spine of a well-formed section
re-assembles it on top of the stack. -/
theorem popThru (c : SecS) (hok : okT c = true) (l : Nat) (hl : l ≤ c.level)
    (roots rest : List SecS) :
    popS l roots (rsT c ++ rest) = popS l roots (c :: rest) := by
  cases c with
  | mk ti lv cc ch =>
    rw [rsT_eq]
    have hp := okT_parts ti lv cc ch hok
    have := popThruAux (sizeF ch) ti lv cc ch [] (Nat.le_refl _)
      (fun x hx => ⟨allGT_mem lv ch hp.2.1 x hx, okF_mem ch hp.2.2.2 x hx⟩)
      l (by simpa [SecS.level] using hl) roots rest
    simpa using this

/-- Collapsing through the rebuilt right spine re-assembles the tree
(worker, by induction on a size bound). -/
theorem closeThruAux (n : Nat) : ∀ (ti : String) (lv : Nat) (cc : String)
    (list init : List SecS), sizeF list ≤ n →
    ∀ roots rest : List SecS,
    closeAll roots (rsGo ti lv cc init list ++ rest) =
    closeAll roots (SecS.mk ti lv cc (init ++ list) :: rest) := by
  induction n with
  | zero =>
    intro ti lv cc list init hsz roots rest
    cases list with
    | nil => rw [rsGo_nil]; simp
    | cons x xs =>
      exfalso
      have := sizeT_pos x
      simp [sizeF] at hsz
      omega
  | succ n ih =>
    intro ti lv cc list init hsz roots rest
    cases list with
    | nil => rw [rsGo_nil]; simp
    | cons x xs =>
      cases xs with
      | nil =>
        rw [rsGo_one]
        cases x with
        | mk a b c d =>
          have hszd : sizeF d ≤ n := by
            simp [sizeF, sizeT] at hsz
            omega
          have h1 := ih a b c d [] hszd roots (SecS.mk ti lv cc init :: rest)
          rw [rsT_eq]
          simp only [List.append_assoc, List.singleton_append]
          simp only [List.nil_append] at h1
          rw [h1, closeAll_more]
          have hpc : pushChild (SecS.mk ti lv cc init) (SecS.mk a b c d) =
            SecS.mk ti lv cc (init ++ [SecS.mk a b c d]) := rfl
          rw [hpc]
      | cons y rest2 =>
        rw [rsGo_two]
        have hsz2 : sizeF (y :: rest2) ≤ n := by
          have := sizeT_pos x
          simp [sizeF] at hsz ⊢
          omega
        have := ih ti lv cc (y :: rest2) (init ++ [x]) hsz2 roots rest
        rw [this]
        simp

/-- Collapsing through the rebuilt right spine of a section re-assembles it. -/
theorem closeThru (c : SecS) (roots rest : List SecS) :
    closeAll roots (rsT c ++ rest) = closeAll roots (c :: rest) := by
  cases c with
  | mk ti lv cc ch =>
    rw [rsT_eq]
    have := closeThruAux (sizeF ch) ti lv cc ch [] (Nat.le_refl _) roots rest
    simpa using this

theorem flattenT_eq (ti : String) (l : Nat) (c : String) (ch : List SecS) :
    flattenT (SecS.mk ti l c ch) =
    MNode.heading l ti ::
      ((if c = "" then [] else [MNode.content c]) ++ flattenF ch) := by
  simp [flattenT]

theorem flattenF_nil : flattenF [] = [] := by
  simp [flattenF]

theorem flattenF_cons (t : SecS) (ts : List SecS) :
    flattenF (t :: ts) = flattenT t ++ flattenF ts := by
  simp [flattenF]

theorem stepS_heading_st (roots st : List SecS) (l : Nat) (txt : String) :
    stepS ⟨roots, st⟩ (MNode.heading l txt) =
    ⟨(popS l roots st).1, SecS.mk (strTrim txt) l "" [] :: (popS l roots st).2⟩ := rfl

theorem stepS_content_st (roots : List SecS) (t : SecS) (st : List SecS)
    (frag : String) :
    stepS ⟨roots, t :: st⟩ (MNode.content frag) =
    ⟨roots, addContent t frag :: st⟩ := rfl

theorem empty_append_str (s : String) : "" ++ s = s := by
  cases s with
  | mk data => rfl

/-- Replaying the flatten of a well-formed section from any state first
pops the stack to the section's level and then leaves the section's
right spine open on top; replaying the flattens of its later
well-formed siblings extends the spine below a common parent (joint
worker, by induction on a size bound). -/
theorem runFlatAux (n : Nat) :
    (∀ (ti : String) (lv : Nat) (cc : String) (ch : List SecS),
      sizeT (SecS.mk ti lv cc ch) ≤ n → okT (SecS.mk ti lv cc ch) = true →
      ∀ roots st : List SecS,
      runS ⟨roots, st⟩ (flattenT (SecS.mk ti lv cc ch)) =
        ⟨(popS lv roots st).1,
         rsT (SecS.mk ti lv cc ch) ++ (popS lv roots st).2⟩) ∧
    (∀ (ti : String) (lv : Nat) (cc : String) (init : List SecS)
      (cprev : SecS) (cs : List SecS),
      sizeF cs ≤ n → okT cprev = true → lv < cprev.level →
      (∀ x ∈ cs, lv < x.level ∧ okT x = true) →
      sibNI (cprev :: cs) = true →
      ∀ roots st : List SecS,
      runS ⟨roots, rsT cprev ++ SecS.mk ti lv cc init :: st⟩ (flattenF cs) =
        ⟨roots, rsGo ti lv cc init (cprev :: cs) ++ st⟩) := by
  induction n with
  | zero =>
    constructor
    · intro ti lv cc ch hsz _ _ _
      exfalso
      simp [sizeT] at hsz
    · intro ti lv cc init cprev cs hsz _ _ _ _ roots st
      cases cs with
      | nil => simp [flattenF_nil, runS, rsGo_one]
      | cons c cs' =>
        exfalso
        have := sizeT_pos c
        simp [sizeF] at hsz
        omega
  | succ n ih =>
    have hA : ∀ (ti : String) (lv : Nat) (cc : String) (ch : List SecS),
        sizeT (SecS.mk ti lv cc ch) ≤ n + 1 → okT (SecS.mk ti lv cc ch) = true →
        ∀ roots st : List SecS,
        runS ⟨roots, st⟩ (flattenT (SecS.mk ti lv cc ch)) =
          ⟨(popS lv roots st).1,
           rsT (SecS.mk ti lv cc ch) ++ (popS lv roots st).2⟩ := by
      intro ti lv cc ch hsz hok roots st
      have hp := okT_parts ti lv cc ch hok
      have hch : ∀ r st' : List SecS,
          runS ⟨r, SecS.mk ti lv cc [] :: st'⟩ (flattenF ch) =
          ⟨r, rsGo ti lv cc [] ch ++ st'⟩ := by
        intro r st'
        cases ch with
        | nil => simp [flattenF_nil, runS, rsGo_nil]
        | cons c chrest =>
          have hc : lv < c.level := allGT_mem lv _ hp.2.1 c (by simp)
          have hokc : okT c = true := okF_mem _ hp.2.2.2 c (by simp)
          have hszc : sizeT c ≤ n := by
            simp [sizeT, sizeF] at hsz
            omega
          have hszrest : sizeF chrest ≤ n := by
            have := sizeT_pos c
            simp [sizeT, sizeF] at hsz
            omega
          rw [flattenF_cons, runS_append]
          cases c with
          | mk a b cstr d =>
            rw [ih.1 a b cstr d hszc hokc r (SecS.mk ti lv cc [] :: st')]
            rw [popS_stop b r (SecS.mk ti lv cc []) st'
              (by simpa [SecS.level] using hc)]
            exact ih.2 ti lv cc [] (SecS.mk a b cstr d) chrest hszrest hokc hc
              (fun x hx => ⟨allGT_mem lv _ hp.2.1 x (by simp [hx]),
                okF_mem _ hp.2.2.2 x (by simp [hx])⟩)
              hp.2.2.1 r st'
      by_cases hcc : cc = ""
      · have hif : (if cc = "" then ([] : List MNode) else [MNode.content cc]) = [] := by
          rw [if_pos hcc]
        rw [flattenT_eq, hif, List.nil_append, runS_cons, stepS_heading_st, hp.1]
        subst hcc
        rw [hch ((popS lv roots st).1) ((popS lv roots st).2), rsT_eq]
      · have hif : (if cc = "" then ([] : List MNode) else [MNode.content cc]) =
            [MNode.content cc] := by
          rw [if_neg hcc]
        rw [flattenT_eq, hif, List.singleton_append, runS_cons, stepS_heading_st, hp.1]
        have hstep : runS ⟨(popS lv roots st).1,
            SecS.mk ti lv "" [] :: (popS lv roots st).2⟩
            (MNode.content cc :: flattenF ch) =
            runS ⟨(popS lv roots st).1,
              SecS.mk ti lv cc [] :: (popS lv roots st).2⟩ (flattenF ch) := by
          rw [runS_cons, stepS_content_st]
          have h0 : addContent (SecS.mk ti lv "" []) cc =
            SecS.mk ti lv ("" ++ cc) [] := rfl
          rw [h0, empty_append_str]
        rw [hstep, hch ((popS lv roots st).1) ((popS lv roots st).2), rsT_eq]
    refine ⟨hA, ?_⟩
    intro ti lv cc init cprev cs hsz hokp hlvp hall hsib roots st
    cases cs with
    | nil => simp [flattenF_nil, runS, rsGo_one]
    | cons c cs' =>
      have hc := hall c (by simp)
      have hszc : sizeT c ≤ n + 1 := by
        simp [sizeF] at hsz
        omega
      have hszrest : sizeF cs' ≤ n := by
        have := sizeT_pos c
        simp [sizeF] at hsz
        omega
      have hble : c.level ≤ cprev.level := (sibNI_head cprev c cs' hsib).1
      rw [flattenF_cons, runS_append]
      cases c with
      | mk a b cstr d =>
        rw [hA a b cstr d hszc hc.2 roots (rsT cprev ++ SecS.mk ti lv cc init :: st)]
        rw [popThru cprev hokp b (by simpa [SecS.level] using hble) roots
          (SecS.mk ti lv cc init :: st)]
        rw [popS_more b roots cprev (SecS.mk ti lv cc init) st
          (by simpa [SecS.level] using hble)]
        have hpc : pushChild (SecS.mk ti lv cc init) cprev =
          SecS.mk ti lv cc (init ++ [cprev]) := rfl
        rw [hpc, popS_stop b roots (SecS.mk ti lv cc (init ++ [cprev])) st
          (by simpa [SecS.level] using hc.1)]
        rw [rsGo_two]
        exact ih.2 ti lv cc (init ++ [cprev]) (SecS.mk a b cstr d) cs' hszrest hc.2
          hc.1 (fun x hx => hall x (by simp [hx]))
          (sibNI_head cprev (SecS.mk a b cstr d) cs' hsib).2 roots st

/-- Replaying the flatten of one well-formed section: the builder pops
to the section level, then reopens the section's right spine. -/
theorem runFlatT (c : SecS) (hok : okT c = true) (roots st : List SecS) :
    runS ⟨roots, st⟩ (flattenT c) =
    ⟨(popS c.level roots st).1, rsT c ++ (popS c.level roots st).2⟩ := by
  cases c with
  | mk ti lv cc ch =>
    exact (runFlatAux (sizeT (SecS.mk ti lv cc ch))).1 ti lv cc ch
      (Nat.le_refl _) hok roots st

/-- Replaying the flattens of the later top-level sections after the
first one's spine is open, then collapsing, recovers all sections in
order (worker, by induction on a size bound). -/
theorem rebuildTop (n : Nat) : ∀ (cprev : SecS) (cs : List SecS),
    sizeF cs ≤ n → okT cprev = true → (∀ x ∈ cs, okT x = true) →
    sibNI (cprev :: cs) = true → ∀ roots : List SecS,
    closeAll (runS ⟨roots, rsT cprev⟩ (flattenF cs)).roots
      (runS ⟨roots, rsT cprev⟩ (flattenF cs)).stack = roots ++ cprev :: cs := by
  induction n with
  | zero =>
    intro cprev cs hsz hokp _ _ roots
    cases cs with
    | nil =>
      simp only [flattenF_nil, runS, List.foldl_nil]
      have := closeThru cprev roots []
      simp only [List.append_nil] at this
      rw [this, closeAll_one]
    | cons c cs' =>
      exfalso
      have := sizeT_pos c
      simp [sizeF] at hsz
      omega
  | succ n ih =>
    intro cprev cs hsz hokp hall hsib roots
    cases cs with
    | nil =>
      simp only [flattenF_nil, runS, List.foldl_nil]
      have := closeThru cprev roots []
      simp only [List.append_nil] at this
      rw [this, closeAll_one]
    | cons c cs' =>
      have hokc : okT c = true := hall c (by simp)
      have hble : c.level ≤ cprev.level := (sibNI_head cprev c cs' hsib).1
      have hszrest : sizeF cs' ≤ n := by
        have := sizeT_pos c
        simp [sizeF] at hsz
        omega
      rw [flattenF_cons, runS_append]
      have hpop : popS c.level roots (rsT cprev) = (roots ++ [cprev], []) := by
        have h1 := popThru cprev hokp c.level hble roots []
        simp only [List.append_nil] at h1
        rw [h1, popS_last c.level roots cprev hble]
      have hone : runS ⟨roots, rsT cprev⟩ (flattenT c) =
          ⟨roots ++ [cprev], rsT c⟩ := by
        rw [runFlatT c hokc roots (rsT cprev), hpop]
        simp
      rw [hone]
      have := ih c cs' hszrest hokc (fun x hx => hall x (by simp [hx]))
        (sibNI_head cprev c cs' hsib).2 (roots ++ [cprev])
      rw [this]
      simp

/-- Rebuilding a well-formed forest from its flatten recovers it. -/
theorem rebuild (F : List SecS) (hok : okF F = true) (hsib : sibNI F = true) :
    buildTreeS (flattenF F) = F := by
  cases F with
  | nil => rw [flattenF_nil]; rfl
  | cons c cs =>
    have hokc : okT c = true := okF_mem _ hok c (by simp)
    show closeAll (runS ⟨[], []⟩ (flattenF (c :: cs))).roots
      (runS ⟨[], []⟩ (flattenF (c :: cs))).stack = c :: cs
    rw [flattenF_cons, runS_append]
    have hone : runS ⟨[], []⟩ (flattenT c) = ⟨[], rsT c⟩ := by
      rw [runFlatT c hokc [] [], popS_nil]
      simp
    rw [hone]
    have := rebuildTop (sizeF cs) c cs (Nat.le_refl _) hokc
      (fun x hx => okF_mem _ hok x (by simp [hx])) hsib []
    rw [this]
    simp


/-- C2 (amended): the round trip is stable at the structural level: for
every input, replaying the flatten of the built tree (one heading per
section, one content node per non-empty contentHtml, pre-order -- i.e.
serialize-then-reparse whenever the per-fragment sanitize is the
identity) rebuilds exactly the same tree; and on the specification's
own example the full concrete pipeline (serialize with its sanitizers,
re-parse, re-build) reproduces the built tree verbatim.  The claimed
isomorphism for every markup `m` is refuted by
the `width` counterexample: contentHtml is not always preserved. -/
theorem claim_C2 :
    (∀ ns : List MNode, buildTreeS (flattenF (buildTreeS ns)) = buildTreeS ns) ∧
    roundTrip [MNode.heading 1 "A", MNode.content "<p>x</p>",
        MNode.heading 2 "B", MNode.content "<p>y</p>", MNode.heading 1 "C"] =
      buildTreeS [MNode.heading 1 "A", MNode.content "<p>x</p>",
        MNode.heading 2 "B", MNode.content "<p>y</p>", MNode.heading 1 "C"] := by
  constructor
  · intro ns
    have h := buildTreeS_SOK ns
    exact rebuild (buildTreeS ns) h.1 h.2
  · decide

theorem flattenF_append (a b : List SecS) :
    flattenF (a ++ b) = flattenF a ++ flattenF b := by
  induction a with
  | nil => simp [flattenF_nil]
  | cons t ts ih => simp [flattenF_cons, ih]

theorem flattenT_push (p t : SecS) :
    flattenT (pushChild p t) = flattenT p ++ flattenT t := by
  cases p with
  | mk ti l c ch =>
    have h0 : pushChild (SecS.mk ti l c ch) t = SecS.mk ti l c (ch ++ [t]) := rfl
    rw [h0, flattenT_eq, flattenT_eq, flattenF_append, flattenF_cons, flattenF_nil]
    simp

/-- The flatten that the still-open stack (head = top, so bottom first
in document order) will eventually contribute to the output forest. -/
def stackFlat : List SecS → List MNode
| [] => []
| t :: st => stackFlat st ++ flattenT t

theorem popFlat (l : Nat) : ∀ st roots : List SecS,
    flattenF (popS l roots st).1 ++ stackFlat (popS l roots st).2 =
    flattenF roots ++ stackFlat st := by
  refine popRecAux SecS.level pushChild l
    (fun st => ∀ roots, flattenF (popS l roots st).1 ++ stackFlat (popS l roots st).2 =
      flattenF roots ++ stackFlat st) ?_ ?_ ?_ ?_
  · intro roots
    rw [popS_nil]
  · intro t hlt roots
    rw [popS_last l roots t hlt]
    show flattenF (roots ++ [t]) ++ stackFlat [] = flattenF roots ++ stackFlat [t]
    rw [flattenF_append]
    show (flattenF roots ++ flattenF [t]) ++ [] = flattenF roots ++ ([] ++ flattenT t)
    simp [flattenF_cons, flattenF_nil]
  · intro t p st hlt ih roots
    rw [popS_more l roots t p st hlt, ih roots]
    show flattenF roots ++ (stackFlat st ++ flattenT (pushChild p t)) =
      flattenF roots ++ ((stackFlat st ++ flattenT p) ++ flattenT t)
    rw [flattenT_push]
    simp
  · intro t st hlt roots
    rw [popS_stop l roots t st (Nat.lt_of_not_le hlt)]

theorem closeFlat : ∀ st roots : List SecS,
    flattenF (closeAll roots st) = flattenF roots ++ stackFlat st := by
  refine closeRecAux pushChild
    (fun st => ∀ roots, flattenF (closeAll roots st) =
      flattenF roots ++ stackFlat st) ?_ ?_ ?_
  · intro roots
    rw [closeAll_nil]
    show flattenF roots = flattenF roots ++ []
    simp
  · intro t roots
    rw [closeAll_one, flattenF_append]
    show flattenF roots ++ flattenF [t] = flattenF roots ++ ([] ++ flattenT t)
    simp [flattenF_cons, flattenF_nil]
  · intro t p st ih roots
    rw [closeAll_more, ih roots]
    show flattenF roots ++ (stackFlat st ++ flattenT (pushChild p t)) =
      flattenF roots ++ ((stackFlat st ++ flattenT p) ++ flattenT t)
    rw [flattenT_push]
    simp

theorem runFlatHead : ∀ (ps : List (Nat × String)) (s : BStateS),
    flattenF (runS s (ps.map fun p => MNode.heading p.1 p.2)).roots ++
      stackFlat (runS s (ps.map fun p => MNode.heading p.1 p.2)).stack =
    (flattenF s.roots ++ stackFlat s.stack) ++
      ps.map (fun p => MNode.heading p.1 (strTrim p.2)) := by
  intro ps
  induction ps with
  | nil =>
    intro s
    simp [runS]
  | cons p ps ih =>
    intro s
    have hnode : flattenT (SecS.mk (strTrim p.2) p.1 "" []) =
        [MNode.heading p.1 (strTrim p.2)] := by
      rw [flattenT_eq, flattenF_nil]
      simp
    rw [List.map_cons, runS_cons, ih (stepS s (MNode.heading p.1 p.2)),
      stepS_heading_eq]
    show (flattenF (popS p.1 s.roots s.stack).1 ++
        stackFlat (SecS.mk (strTrim p.2) p.1 "" [] ::
          (popS p.1 s.roots s.stack).2)) ++
        ps.map (fun p => MNode.heading p.1 (strTrim p.2)) =
      (flattenF s.roots ++ stackFlat s.stack) ++
        (MNode.heading p.1 (strTrim p.2) ::
          ps.map (fun p => MNode.heading p.1 (strTrim p.2)))
    rw [stackFlat, hnode]
    have hp := popFlat p.1 s.stack s.roots
    calc (flattenF (popS p.1 s.roots s.stack).1 ++
          (stackFlat (popS p.1 s.roots s.stack).2 ++
            [MNode.heading p.1 (strTrim p.2)])) ++
          ps.map (fun p => MNode.heading p.1 (strTrim p.2))
        = ((flattenF (popS p.1 s.roots s.stack).1 ++
            stackFlat (popS p.1 s.roots s.stack).2) ++
            [MNode.heading p.1 (strTrim p.2)]) ++
          ps.map (fun p => MNode.heading p.1 (strTrim p.2)) := by simp
      _ = ((flattenF s.roots ++ stackFlat s.stack) ++
            [MNode.heading p.1 (strTrim p.2)]) ++
          ps.map (fun p => MNode.heading p.1 (strTrim p.2)) := by rw [hp]
      _ = (flattenF s.roots ++ stackFlat s.stack) ++
          (MNode.heading p.1 (strTrim p.2) ::
            ps.map (fun p => MNode.heading p.1 (strTrim p.2))) := by simp

/-- Building from headings only: the flatten of the result is one
heading per input pair, in order, with the trimmed title. -/
theorem flattenBuildHead (ps : List (Nat × String)) :
    flattenF (buildTreeS (ps.map fun p => MNode.heading p.1 p.2)) =
    ps.map (fun p => MNode.heading p.1 (strTrim p.2)) := by
  show flattenF (closeAll (runS ⟨[], []⟩ (ps.map fun p => MNode.heading p.1 p.2)).roots
    (runS ⟨[], []⟩ (ps.map fun p => MNode.heading p.1 p.2)).stack) = _
  rw [closeFlat, runFlatHead ps ⟨[], []⟩]
  show (flattenF [] ++ stackFlat []) ++ _ = _
  rw [flattenF_nil]
  simp [stackFlat]

mutual

/-- Preorder walk of one section carrying the ancestor chain
(root-to-parent) of every visited section. -/
def annT (pa : List SecS) : SecS → List (List SecS × SecS)
| .mk ti l c ch =>
  (pa, SecS.mk ti l c ch) :: annFs (pa ++ [SecS.mk ti l c ch]) ch

/-- Preorder walk of a forest with ancestor chains. -/
def annFs (pa : List SecS) : List SecS → List (List SecS × SecS)
| [] => []
| t :: ts => annT pa t ++ annFs pa ts

end

theorem annT_eq (pa : List SecS) (ti : String) (l : Nat) (c : String)
    (ch : List SecS) :
    annT pa (SecS.mk ti l c ch) =
    (pa, SecS.mk ti l c ch) :: annFs (pa ++ [SecS.mk ti l c ch]) ch := by
  simp [annT]

theorem annFs_nil (pa : List SecS) : annFs pa [] = [] := by
  simp [annFs]

theorem annFs_cons (pa : List SecS) (t : SecS) (ts : List SecS) :
    annFs pa (t :: ts) = annT pa t ++ annFs pa ts := by
  simp [annFs]

/-- When the flatten of a forest consists of headings only, the
annotated preorder visits exactly the sections whose heading nodes make
up the flatten, in the same order. -/
theorem annFs_headings (n : Nat) : ∀ (F : List SecS) (pa : List SecS),
    sizeF F ≤ n →
    (∀ m ∈ flattenF F, ∀ c : String, m ≠ MNode.content c) →
    (annFs pa F).map (fun a => MNode.heading a.2.level a.2.title) =
      flattenF F := by
  induction n with
  | zero =>
    intro F pa hsz hh
    cases F with
    | nil => rw [annFs_nil, flattenF_nil]; rfl
    | cons t ts =>
      exfalso
      have := sizeT_pos t
      simp [sizeF] at hsz
      omega
  | succ n ih =>
    intro F pa hsz hh
    cases F with
    | nil => rw [annFs_nil, flattenF_nil]; rfl
    | cons t ts =>
      cases t with
      | mk ti l c ch =>
        have hc : c = "" := by
          by_cases hc0 : c = ""
          · exact hc0
          · exfalso
            refine hh (MNode.content c) ?_ c rfl
            rw [flattenF_cons, flattenT_eq, if_neg hc0]
            simp
        subst hc
        have hszch : sizeF ch ≤ n := by
          simp [sizeF, sizeT] at hsz
          omega
        have hszts : sizeF ts ≤ n := by
          simp [sizeF, sizeT] at hsz
          omega
        have hhch : ∀ m ∈ flattenF ch, ∀ cx : String, m ≠ MNode.content cx := by
          intro m hm cx
          refine hh m ?_ cx
          rw [flattenF_cons, flattenT_eq, if_pos rfl]
          simp [hm]
        have hhts : ∀ m ∈ flattenF ts, ∀ cx : String, m ≠ MNode.content cx := by
          intro m hm cx
          refine hh m ?_ cx
          rw [flattenF_cons]
          simp [hm]
        rw [annFs_cons, annT_eq, flattenF_cons, flattenT_eq, if_pos rfl]
        rw [List.map_append, List.map_cons]
        rw [ih ch (pa ++ [SecS.mk ti l "" ch]) hszch hhch,
          ih ts pa hszts hhts]
        show (MNode.heading (SecS.mk ti l "" ch).level (SecS.mk ti l "" ch).title ::
          flattenF ch) ++ flattenF ts =
          (MNode.heading l ti :: ([] ++ flattenF ch)) ++ flattenF ts
        rfl

/-- Two lists whose heading images agree have the same level-title
pairs. -/
theorem mapHeadEq : ∀ (A : List (List SecS × SecS)) (ps : List (Nat × String)),
    A.map (fun a => MNode.heading a.2.level a.2.title) =
      ps.map (fun p => MNode.heading p.1 p.2) →
    A.map (fun a => (a.2.level, a.2.title)) = ps := by
  intro A
  induction A with
  | nil =>
    intro ps h
    cases ps with
    | nil => rfl
    | cons p ps => simp at h
  | cons a A ih =>
    intro ps h
    cases ps with
    | nil => simp at h
    | cons p ps =>
      simp only [List.map_cons, List.cons.injEq, MNode.heading.injEq] at h
      simp only [List.map_cons, List.cons.injEq]
      refine ⟨?_, ih ps h.2⟩
      rw [h.1.1, h.1.2]

theorem takeWhile_all {α : Type} (p : α → Bool) : ∀ l : List α,
    (∀ x ∈ l, p x = true) → l.takeWhile p = l := by
  intro l
  induction l with
  | nil => intro _; rfl
  | cons x xs ih =>
    intro h
    simp only [List.takeWhile_cons, h x (List.mem_cons_self x xs), if_true]
    rw [ih (fun y hy => h y (List.mem_cons_of_mem x hy))]

theorem takeWhile_stop {α : Type} (p : α → Bool) (t : α) (rest : List α) :
    ∀ l : List α, (∀ x ∈ l, p x = true) → p t = false →
    (l ++ t :: rest).takeWhile p = l := by
  intro l
  induction l with
  | nil =>
    intro _ ht
    simp [List.takeWhile_cons, ht]
  | cons x xs ih =>
    intro h ht
    simp only [List.cons_append, List.takeWhile_cons,
      h x (List.mem_cons_self x xs), if_true]
    rw [ih (fun y hy => h y (List.mem_cons_of_mem x hy)) ht]

theorem lastConsNe {α : Type} (x : α) (l : List α) (h : l ≠ []) :
    (x :: l).getLast? = l.getLast? := by
  cases l with
  | nil => exact absurd rfl h
  | cons y ys => rw [List.getLast?_cons_cons]

theorem lastApp {α : Type} (b : List α) (hb : b ≠ []) : ∀ a : List α,
    (a ++ b).getLast? = b.getLast? := by
  intro a
  induction a with
  | nil => rfl
  | cons x a ih =>
    have hne : a ++ b ≠ [] := by
      intro h0
      rcases List.append_eq_nil.mp h0 with ⟨_, h2⟩
      exact hb h2
    rw [List.cons_append, lastConsNe x (a ++ b) hne, ih]

theorem headApp {α : Type} (a b : List α) (ha : a ≠ []) :
    (a ++ b).head? = a.head? := by
  cases a with
  | nil => exact absurd rfl ha
  | cons x xs => rfl

theorem lastMem {α : Type} : ∀ (l : List α) (a : α),
    l.getLast? = some a → a ∈ l := by
  intro l
  induction l with
  | nil => intro a h; simp at h
  | cons x xs ih =>
    intro a h
    cases xs with
    | nil =>
      simp only [List.getLast?_singleton, Option.some.injEq] at h
      rw [h]
      exact List.mem_cons_self a []
    | cons y ys =>
      rw [List.getLast?_cons_cons] at h
      exact List.mem_cons_of_mem x (ih a h)

theorem annT_ne (pa : List SecS) (t : SecS) : annT pa t ≠ [] := by
  cases t with
  | mk ti l c ch =>
    rw [annT_eq]
    simp

/-- Well-ordering facts for one step of the annotated walk: the next
preorder entry is a child of the previous one exactly when it is
strictly deeper, and its ancestor chain is the longest prefix, with
levels below its own, of the previous entry's chain extended by the
previous entry itself (which is the open-section chain at that point). -/
def consecOK (a b : List SecS × SecS) : Prop :=
  (b.2 ∈ a.2.children ↔ a.2.level < b.2.level) ∧
  b.1 = (a.1 ++ [a.2]).takeWhile (fun s => decide (s.level < b.2.level))

/-- The annotated preorder of a well-formed forest satisfies `consecOK`
between every two consecutive entries, starts at its first root with
the ambient chain, and ends in a childless section at least as deep as
the last root (joint worker, by induction on a size bound). -/
theorem annAux (n : Nat) :
    (∀ (ti : String) (l : Nat) (c : String) (ch : List SecS) (pa : List SecS),
      sizeT (SecS.mk ti l c ch) ≤ n → okT (SecS.mk ti l c ch) = true →
      (∀ q ∈ pa, q.level < l) →
      List.Chain' consecOK (annT pa (SecS.mk ti l c ch)) ∧
      (annT pa (SecS.mk ti l c ch)).head? = some (pa, SecS.mk ti l c ch) ∧
      (∃ px x, (annT pa (SecS.mk ti l c ch)).getLast? = some (px, x) ∧
        x.children = [] ∧ l ≤ x.level ∧
        ∃ ds, px ++ [x] = pa ++ SecS.mk ti l c ch :: ds)) ∧
    (∀ (F : List SecS) (pa : List SecS),
      sizeF F ≤ n → okF F = true → sibNI F = true →
      (∀ q ∈ pa, ∀ r ∈ F, q.level < r.level) →
      List.Chain' consecOK (annFs pa F) ∧
      (∀ t ts, F = t :: ts → (annFs pa F).head? = some (pa, t)) ∧
      (∀ t ts, F = t :: ts → ∃ px x, (annFs pa F).getLast? = some (px, x) ∧
        x.children = [] ∧
        ∃ r ds, F.getLast? = some r ∧ px ++ [x] = pa ++ r :: ds ∧
          r.level ≤ x.level)) := by
  induction n with
  | zero =>
    constructor
    · intro ti l c ch pa hsz _ _
      exfalso
      simp [sizeT] at hsz
    · intro F pa hsz _ _ _
      cases F with
      | nil =>
        refine ⟨?_, ?_, ?_⟩
        · rw [annFs_nil]; exact List.chain'_nil
        · intro t ts h; exact absurd h (by simp)
        · intro t ts h; exact absurd h (by simp)
      | cons t ts =>
        exfalso
        have := sizeT_pos t
        simp [sizeF] at hsz
        omega
  | succ n ih =>
    have hQT : ∀ (ti : String) (l : Nat) (c : String) (ch : List SecS)
        (pa : List SecS),
        sizeT (SecS.mk ti l c ch) ≤ n + 1 → okT (SecS.mk ti l c ch) = true →
        (∀ q ∈ pa, q.level < l) →
        List.Chain' consecOK (annT pa (SecS.mk ti l c ch)) ∧
        (annT pa (SecS.mk ti l c ch)).head? = some (pa, SecS.mk ti l c ch) ∧
        (∃ px x, (annT pa (SecS.mk ti l c ch)).getLast? = some (px, x) ∧
          x.children = [] ∧ l ≤ x.level ∧
          ∃ ds, px ++ [x] = pa ++ SecS.mk ti l c ch :: ds) := by
      intro ti l c ch pa hsz hok hpa
      have hp := okT_parts ti l c ch hok
      have hszch : sizeF ch ≤ n := by
        simp [sizeT] at hsz
        omega
      have hpa' : ∀ q ∈ pa ++ [SecS.mk ti l c ch], ∀ r ∈ ch, q.level < r.level := by
        intro q hq r hr
        have hlr : l < r.level := allGT_mem l ch hp.2.1 r hr
        rcases List.mem_append.mp hq with hq1 | hq2
        · exact Nat.lt_trans (hpa q hq1) hlr
        · have : q = SecS.mk ti l c ch := by simpa using hq2
          rw [this]
          simpa [SecS.level] using hlr
      have QFch := ih.2 ch (pa ++ [SecS.mk ti l c ch]) hszch hp.2.2.2 hp.2.2.1 hpa'
      refine ⟨?_, ?_, ?_⟩
      · rw [annT_eq]
        rw [List.chain'_cons']
        refine ⟨?_, QFch.1⟩
        intro y hy
        cases ch with
        | nil =>
          rw [annFs_nil] at hy
          simp at hy
        | cons c0 cs0 =>
          rw [QFch.2.1 c0 cs0 rfl] at hy
          simp only [Option.mem_def, Option.some.injEq] at hy
          subst hy
          have hl0 : l < c0.level := allGT_mem l _ hp.2.1 c0 (List.mem_cons_self c0 cs0)
          constructor
          · constructor
            · intro _
              simpa [SecS.level] using hl0
            · intro _
              exact List.mem_cons_self c0 cs0
          · show pa ++ [SecS.mk ti l c (c0 :: cs0)] =
              (pa ++ [SecS.mk ti l c (c0 :: cs0)]).takeWhile
                (fun s => decide (s.level < c0.level))
            rw [takeWhile_all _ _ ?_]
            intro q hq
            rcases List.mem_append.mp hq with hq1 | hq2
            · simp only [decide_eq_true_eq]
              exact Nat.lt_trans (hpa q hq1) hl0
            · have : q = SecS.mk ti l c (c0 :: cs0) := by simpa using hq2
              rw [this]
              simp only [decide_eq_true_eq, SecS.level]
              exact hl0
      · rw [annT_eq]
        rfl
      · cases ch with
        | nil =>
          refine ⟨pa, SecS.mk ti l c [], ?_, rfl, Nat.le_refl _, [], rfl⟩
          rw [annT_eq, annFs_nil]
          rfl
        | cons c0 cs0 =>
          obtain ⟨px, x, hlast, hxch, r, ds, hrlast, hshape, hrx⟩ :=
            QFch.2.2 c0 cs0 rfl
          have hne : annFs (pa ++ [SecS.mk ti l c (c0 :: cs0)]) (c0 :: cs0) ≠ [] := by
            rw [annFs_cons]
            intro h0
            rcases List.append_eq_nil.mp h0 with ⟨h1, _⟩
            exact annT_ne _ c0 h1
          refine ⟨px, x, ?_, hxch, ?_, r :: ds, ?_⟩
          · rw [annT_eq, lastConsNe _ _ hne]
            exact hlast
          · have hrm : r ∈ c0 :: cs0 := lastMem _ r hrlast
            have : l < r.level := allGT_mem l _ hp.2.1 r hrm
            omega
          · rw [hshape]
            simp
    refine ⟨hQT, ?_⟩
    intro F pa hsz hokF hsibF hpa
    cases F with
    | nil =>
      refine ⟨?_, ?_, ?_⟩
      · rw [annFs_nil]; exact List.chain'_nil
      · intro t ts h; exact absurd h (by simp)
      · intro t ts h; exact absurd h (by simp)
    | cons t ts =>
      cases t with
      | mk ti l c ch =>
        rw [okF] at hokF
        simp only [Bool.and_eq_true] at hokF
        have hsibts : sibNI ts = true := by
          cases ts with
          | nil => rfl
          | cons t' ts' => exact (sibNI_head _ t' ts' hsibF).2
        have hpat : ∀ q ∈ pa, q.level < l := by
          intro q hq
          have := hpa q hq (SecS.mk ti l c ch) (List.mem_cons_self _ ts)
          simpa [SecS.level] using this
        have hszt : sizeT (SecS.mk ti l c ch) ≤ n + 1 := by
          simp [sizeF, sizeT] at hsz ⊢
          omega
        have hszts : sizeF ts ≤ n := by
          simp [sizeF, sizeT] at hsz
          omega
        have QTt := hQT ti l c ch pa hszt hokF.1 hpat
        have QFts := ih.2 ts pa hszts hokF.2 hsibts
          (fun q hq r hr => hpa q hq r (List.mem_cons_of_mem _ hr))
        refine ⟨?_, ?_, ?_⟩
        · rw [annFs_cons]
          refine List.Chain'.append QTt.1 QFts.1 ?_
          intro x0 hx0 y hy
          cases ts with
          | nil =>
            rw [annFs_nil] at hy
            simp at hy
          | cons t' ts' =>
            rw [QFts.2.1 t' ts' rfl] at hy
            simp only [Option.mem_def, Option.some.injEq] at hy
            subst hy
            obtain ⟨px, x, hlast, hxch, hlx, ds, hshape⟩ := QTt.2.2
            rw [hlast] at hx0
            simp only [Option.mem_def, Option.some.injEq] at hx0
            subst hx0
            have hts' : t'.level ≤ l := by
              have := (sibNI_head (SecS.mk ti l c ch) t' ts' hsibF).1
              simpa [SecS.level] using this
            constructor
            · show t' ∈ x.children ↔ x.level < t'.level
              rw [hxch]
              constructor
              · intro h0; simp at h0
              · intro h0; omega
            · show pa = (px ++ [x]).takeWhile
                (fun s => decide (s.level < t'.level))
              rw [hshape, takeWhile_stop _ _ _ _ ?_ ?_]
              · intro q hq
                simp only [decide_eq_true_eq]
                have := hpa q hq t' (List.mem_cons_of_mem _ (List.mem_cons_self t' ts'))
                exact this
              · simp only [decide_eq_false_iff_not, SecS.level, not_lt]
                exact hts'
        · intro t0 ts0 heq
          injection heq with h1 h2
          rw [annFs_cons, headApp _ _ (annT_ne pa _), QTt.2.1, h1]
        · intro t0 ts0 heq
          cases ts with
          | nil =>
            obtain ⟨px, x, hlast, hxch, hlx, ds, hshape⟩ := QTt.2.2
            refine ⟨px, x, ?_, hxch, SecS.mk ti l c ch, ds, rfl, hshape, ?_⟩
            · rw [annFs_cons, annFs_nil, List.append_nil]
              exact hlast
            · simpa [SecS.level] using hlx
          | cons t' ts' =>
            obtain ⟨px, x, hlast, hxch, r, ds, hrlast, hshape, hrx⟩ :=
              QFts.2.2 t' ts' rfl
            have hne : annFs pa (t' :: ts') ≠ [] := by
              rw [annFs_cons]
              intro h0
              rcases List.append_eq_nil.mp h0 with ⟨h1, _⟩
              exact annT_ne _ t' h1
            refine ⟨px, x, ?_, hxch, r, ds, ?_, hshape, hrx⟩
            · rw [annFs_cons, lastApp _ hne]
              exact hlast
            · rw [lastConsNe _ _ (by simp)]
              exact hrlast

theorem chainAt {α : Type} (R : α → α → Prop) (l : List α)
    (hch : List.Chain' R l) (i : Nat) (a b : α)
    (ha : l[i]? = some a) (hb : l[i + 1]? = some b) : R a b := by
  rcases List.getElem?_eq_some.mp ha with ⟨h1, hav⟩
  rcases List.getElem?_eq_some.mp hb with ⟨h2, hbv⟩
  have hc := List.chain'_iff_get.mp hch i (by omega)
  rw [← hav, ← hbv]
  exact hc

/-- The annotated preorder of the tree built from a pure heading
sequence: entry `i` is the section created for heading `i`, paired with
its ancestor chain from the root down to its parent. -/
def annBuild (ps : List (Nat × String)) : List (List SecS × SecS) :=
  annFs [] (buildTreeS (ps.map fun p => MNode.heading p.1 p.2))

/-- C1: running the builder on top-level headings with levels `L1..Ln`,
the sections listed in document (preorder) order are exactly one per
heading, in order, carrying its level and trimmed title; and for every
`i`, section `i+1` is a child of section `i` exactly when
`L(i+1) > L(i)`, and its ancestor chain is the longest prefix of the
open-section chain (the ancestors of section `i` followed by section
`i` itself) whose levels are strictly below `L(i+1)` — the pop-while
`top.level >= level` loop closes exactly the open sections at or below
the incoming level. -/
theorem claim_C1 (ps : List (Nat × String)) :
    (annBuild ps).map (fun a => (a.2.level, a.2.title)) =
      ps.map (fun p => (p.1, strTrim p.2)) ∧
    ∀ (i : Nat) (a b : List SecS × SecS),
      (annBuild ps)[i]? = some a → (annBuild ps)[i + 1]? = some b →
      (b.2 ∈ a.2.children ↔ a.2.level < b.2.level) ∧
      b.1 = (a.1 ++ [a.2]).takeWhile (fun s => decide (s.level < b.2.level)) := by
  have hsok := buildTreeS_SOK (ps.map fun p => MNode.heading p.1 p.2)
  have hflat := flattenBuildHead ps
  constructor
  · have hhead : ∀ m ∈ flattenF (buildTreeS (ps.map fun p => MNode.heading p.1 p.2)),
        ∀ c : String, m ≠ MNode.content c := by
      intro m hm c
      rw [hflat] at hm
      rcases List.mem_map.mp hm with ⟨p, _, hp⟩
      rw [← hp]
      simp
    have hmapH := annFs_headings
      (sizeF (buildTreeS (ps.map fun p => MNode.heading p.1 p.2)))
      (buildTreeS (ps.map fun p => MNode.heading p.1 p.2)) []
      (Nat.le_refl _) hhead
    rw [hflat] at hmapH
    have hcomp : ps.map (fun p => MNode.heading p.1 (strTrim p.2)) =
        (ps.map fun p => (p.1, strTrim p.2)).map
          (fun p => MNode.heading p.1 p.2) := by
      rw [List.map_map]
      rfl
    exact mapHeadEq _ _ (hmapH.trans hcomp)
  · have hch := (annAux
      (sizeF (buildTreeS (ps.map fun p => MNode.heading p.1 p.2)))).2
      (buildTreeS (ps.map fun p => MNode.heading p.1 p.2)) []
      (Nat.le_refl _) hsok.1 hsok.2
      (fun q hq => absurd hq (by simp))
    intro i a b ha hb
    exact chainAt consecOK (annBuild ps) hch.1 i a b ha hb

/-- C1 at a concrete input: for levels 1, 3, 2 the third section (level
2) is not a child of the second (level 3), and its ancestor chain is
the level-1 root only — the takeWhile prefix of the open chain. -/
theorem claim_C1_witness :
    (annBuild [(1, "A"), (3, "C"), (2, "B")])[1]? =
      some ([SecS.mk "A" 1 "" [SecS.mk "C" 3 "" [], SecS.mk "B" 2 "" []]],
        SecS.mk "C" 3 "" []) ∧
    (annBuild [(1, "A"), (3, "C"), (2, "B")])[1 + 1]? =
      some ([SecS.mk "A" 1 "" [SecS.mk "C" 3 "" [], SecS.mk "B" 2 "" []]],
        SecS.mk "B" 2 "" []) ∧
    ((SecS.mk "B" 2 "" [] ∈ (SecS.mk "C" 3 "" []).children ↔
        (SecS.mk "C" 3 "" []).level < (SecS.mk "B" 2 "" []).level) ∧
      [SecS.mk "A" 1 "" [SecS.mk "C" 3 "" [], SecS.mk "B" 2 "" []]] =
        ([SecS.mk "A" 1 "" [SecS.mk "C" 3 "" [], SecS.mk "B" 2 "" []]] ++
          [SecS.mk "C" 3 "" []]).takeWhile
          (fun s => decide (s.level < (SecS.mk "B" 2 "" []).level))) :=
  ⟨by decide, by decide,
    (claim_C1 [(1, "A"), (3, "C"), (2, "B")]).2 1
      ([SecS.mk "A" 1 "" [SecS.mk "C" 3 "" [], SecS.mk "B" 2 "" []]],
        SecS.mk "C" 3 "" [])
      ([SecS.mk "A" 1 "" [SecS.mk "C" 3 "" [], SecS.mk "B" 2 "" []]],
        SecS.mk "B" 2 "" [])
      (by decide) (by decide)⟩

end EditorBackend
